import Mathlib

/-!
Verification of the HATS evaluation and post-processing pipeline.

Shallow embedding of `src/Evaluation/eval_detection_gentime.py` (the tIoU
matcher `compute_average_precision_detection`, the ground-truth importer's
activity index, and the wrapper aggregation) and of the decoding and online
suppression loops of `src/main.py` (`eval_map_nms`, `eval_map_supnet`,
`test_online`).

Numeric conventions: Python floats are modelled as rationals (`ℚ`).  The
one place where the code gives non-finite floats a meaning of their own —
the `gentime` field of a prediction, which `compute_average_precision_detection`
replaces by `0.0` when it is NaN or Inf — is modelled as `Option ℚ`, with
`none` standing for a non-finite value.  On rationals `x / 0 = 0`, which
coincides with the code's `np.nan_to_num(·, nan=0.0, ...)` guards on the
divisions it performs, so those guards need no separate model.

The helpers `utils.segment_iou` and `iou_utils.check_overlap_proposal` are
used by the sources but their files are not part of the sources; they are
modelled from the spec (see their doc comments).  `utils.interpolated_prec_rec`
is likewise external; no claim depends on its value, so it is passed to the
matcher as an explicit function parameter.
-/

/-- A ground-truth instance: one row of the ground-truth data frame
(`video-id`, `t-start`, `t-end`) built by `_import_ground_truth`.  Video
identifiers are abstracted as naturals, times as rationals. -/
structure GtInst where
  videoId : Nat
  tStart : ℚ
  tEnd : ℚ
deriving DecidableEq

instance : Inhabited GtInst := ⟨⟨0, 0, 0⟩⟩

/-- A prediction instance: one row of the prediction data frame
(`video-id`, `t-start`, `t-end`, `score`, `gentime`).  `gentime = none`
models a non-finite float, which the matcher sanitises to `0`. -/
structure PredInst where
  videoId : Nat
  tStart : ℚ
  tEnd : ℚ
  score : ℚ
  gentime : Option ℚ
deriving DecidableEq

instance : Inhabited PredInst := ⟨⟨0, 0, 0, 0, none⟩⟩

/-- Modelled from the spec: `segment_iou` lives in `utils.py`, which is not
among the sources.  Spec §4.1 (SegmentMath): overlap
`max(0, min(q.end, c.end) - max(q.start, c.start))`; union
`(q.end-q.start) + (c.end-c.start) - overlap`; result `overlap/union` if
`union > 0` else `0`. -/
def segment_iou (q : ℚ × ℚ) (c : ℚ × ℚ) : ℚ :=
  let ov := max 0 (min q.2 c.2 - max q.1 c.1)
  let un := (q.2 - q.1) + (c.2 - c.1) - ov
  if 0 < un then ov / un else 0

/-- Insert index `i` into a list of indices that is sorted ascending by
`key`, placing `i` after every entry whose key is not greater.  Building
block of the stable ascending argsort. -/
def insertByAsc (key : Nat → ℚ) (i : Nat) : List Nat → List Nat
  | [] => [i]
  | j :: js => if key i < key j then i :: j :: js else j :: insertByAsc key i js

/-- Ascending `np.argsort` over keys `key 0 .. key (n-1)`, modelled as an
insertion sort.  numpy's default argsort kind guarantees no particular
order among equal keys; this model fixes one (insertion order, which is
what numpy's introsort actually produces on arrays shorter than 16, such
as the two-element counterexample below).  No universal theorem in this
file depends on the tie order — only permutation and sortedness of this
function are used. -/
def argsortAsc (key : Nat → ℚ) : Nat → List Nat
  | 0 => []
  | n + 1 => insertByAsc key n (argsortAsc key n)

/-- The code's `np.argsort(xs)[::-1]`: ascending argsort followed by
reversal.  Whatever tie order the argsort produced, the reversal flips
it, so the composite preserves no input order among equal keys. -/
def argsortDesc (key : Nat → ℚ) (n : Nat) : List Nat :=
  (argsortAsc key n).reverse

/-- One cell of the `tp` / `fp` / `timediff` matrices of
`compute_average_precision_detection`, for one (threshold, prediction)
pair. -/
structure Mark where
  tp : ℚ
  fp : ℚ
  td : ℚ
deriving DecidableEq

instance : Inhabited Mark := ⟨⟨0, 0, 0⟩⟩

/-- The all-thresholds false-positive mark (`fp[:, idx] = 1`). -/
def fpMark : Mark := ⟨0, 1, 0⟩

/-- The matcher's gentime sanitisation:
`if pd.isna(gentime_pred) or np.isinf(gentime_pred): gentime_pred = 0.0`. -/
def sanitizeGentime : Option ℚ → ℚ
  | none => 0
  | some x => x

/-- `ground_truth_gbvn.get_group(this_pred['video-id'])` followed by
`.reset_index()`: the group's rows in original order, each paired with its
original row index (the `index` column used by the lock table). -/
def gtGroup (gt : List GtInst) (v : Nat) : List (Nat × GtInst) :=
  gt.enum.filter (fun x => x.2.videoId == v)

/-- `tiou_arr[j]`: IoU of the prediction against the `j`-th instance of its
video's ground-truth group. -/
def tiouOf (p : PredInst) (g : List (Nat × GtInst)) (j : Nat) : ℚ :=
  segment_iou (p.tStart, p.tEnd) ((g.getD j default).2.tStart, (g.getD j default).2.tEnd)

/-- Original row index (the `index` column) of the `j`-th group element. -/
def origOf (g : List (Nat × GtInst)) (j : Nat) : Nat := (g.getD j default).1

/-- `t-end` of the `j`-th group element (the `gentime_gt_arr` entry; its
`np.nan_to_num` guard is the identity on rationals). -/
def endOf (g : List (Nat × GtInst)) (j : Nat) : ℚ := (g.getD j default).2.tEnd

/-- Result of the inner `for jdx in tiou_sorted_idx` walk: `break` with a
false positive, `break` with a true positive at group position `j`, or fall
off the end of the loop. -/
inductive WalkRes where
  | fpBreak : WalkRes
  | tpAt : Nat → WalkRes
  | exhaust : WalkRes
deriving DecidableEq

/-- The walk itself: stop false-positive as soon as the tIoU is below the
threshold, skip locked instances (`lock_gt[tidx, index] >= 0`), otherwise
stop true-positive. -/
def walkGt (tiou : Nat → ℚ) (thr : ℚ) (row : List ℤ) (orig : Nat → Nat) :
    List Nat → WalkRes
  | [] => .exhaust
  | j :: js =>
    if tiou j < thr then .fpBreak
    else if 0 ≤ row.getD (orig j) (-1) then walkGt tiou thr row orig js
    else .tpAt j

/-- Body of `for tidx, tiou_thr in enumerate(tiou_thresholds)` for one
prediction: run the walk over the group positions sorted by decreasing
tIoU, produce the mark and the updated lock row, then apply the trailing
`if fp == 0 and tp == 0: fp = 1` patch. -/
def stepThr (predIdx : Nat) (p : PredInst) (g : List (Nat × GtInst)) (thr : ℚ)
    (row : List ℤ) : Mark × List ℤ :=
  let tiou := tiouOf p g
  let order := argsortDesc tiou g.length
  let res : Mark × List ℤ :=
    match walkGt tiou thr row (origOf g) order with
    | .fpBreak => (⟨0, 1, 0⟩, row)
    | .tpAt j => (⟨1, 0, sanitizeGentime p.gentime - endOf g j⟩,
        row.set (origOf g j) (predIdx : ℤ))
    | .exhaust => (⟨0, 0, 0⟩, row)
  if res.1.fp = 0 ∧ res.1.tp = 0 then (⟨res.1.tp, 1, res.1.td⟩, res.2) else res

/-- The threshold loop for one prediction, over the enumerated threshold
list, threading the whole lock matrix exactly as the code indexes
`lock_gt[tidx, ...]`. -/
def stepPredThrs (predIdx : Nat) (p : PredInst) (g : List (Nat × GtInst)) :
    List (List ℤ) → List (Nat × ℚ) → List Mark × List (List ℤ)
  | lock, [] => ([], lock)
  | lock, (tidx, thr) :: rest =>
    let s := stepThr predIdx p g thr (lock.getD tidx [])
    let r := stepPredThrs predIdx p g (lock.set tidx s.2) rest
    (s.1 :: r.1, r.2)

/-- One iteration of `for idx, this_pred in prediction.iterrows()`: if the
prediction's video has no ground-truth group (`get_group` raises), mark it
false positive at every threshold; otherwise run the threshold loop. -/
def stepPred (thrs : List ℚ) (predIdx : Nat) (p : PredInst) (gt : List GtInst)
    (lock : List (List ℤ)) : List Mark × List (List ℤ) :=
  let g := gtGroup gt p.videoId
  if g.isEmpty then (thrs.map (fun _ => fpMark), lock)
  else stepPredThrs predIdx p g lock thrs.enum

/-- The prediction loop from an arbitrary lock state, over the enumerated
(score-sorted) prediction list.  Returns the per-prediction mark rows and
the final lock matrix. -/
def runMatchFrom (thrs : List ℚ) (gt : List GtInst) :
    List (List ℤ) → List (Nat × PredInst) → List (List Mark) × List (List ℤ)
  | lock, [] => ([], lock)
  | lock, (i, p) :: rest =>
    let s := stepPred thrs i p gt lock
    let r := runMatchFrom thrs gt s.2 rest
    (s.1 :: r.1, r.2)

/-- `lock_gt = np.ones((len(tiou_thresholds), len(ground_truth))) * -1`. -/
def initLock (thrs : List ℚ) (gt : List GtInst) : List (List ℤ) :=
  List.replicate thrs.length (List.replicate gt.length (-1))

/-- The full matching pass over an already sorted prediction list. -/
def runMatch (thrs : List ℚ) (gt : List GtInst) (sorted : List PredInst) :
    List (List Mark) × List (List ℤ) :=
  runMatchFrom thrs gt (initLock thrs gt) sorted.enum

/-- Single-threshold variant of `stepPred`, acting on one lock row only —
used to state that the lock tables of different thresholds evolve
independently. -/
def stepPredRow (thr : ℚ) (predIdx : Nat) (p : PredInst) (gt : List GtInst)
    (row : List ℤ) : Mark × List ℤ :=
  let g := gtGroup gt p.videoId
  if g.isEmpty then (fpMark, row) else stepThr predIdx p g thr row

/-- Single-threshold prediction loop from an arbitrary lock row. -/
def runMatchRowFrom (thr : ℚ) (gt : List GtInst) :
    List ℤ → List (Nat × PredInst) → List Mark × List ℤ
  | row, [] => ([], row)
  | row, (i, p) :: rest =>
    let s := stepPredRow thr i p gt row
    let r := runMatchRowFrom thr gt s.2 rest
    (s.1 :: r.1, r.2)

/-- The full single-threshold matching pass. -/
def runMatchRow (thr : ℚ) (gt : List GtInst) (sorted : List PredInst) :
    List Mark × List ℤ :=
  runMatchRowFrom thr gt (List.replicate gt.length (-1)) sorted.enum

/-- Read `lock_gt[t, g]` (out-of-range reads default to the unlocked value
`-1`). -/
def lockRead (lock : List (List ℤ)) (t g : Nat) : ℤ :=
  (lock.getD t []).getD g (-1)

/-- The lock matrix after the first `k` (score-sorted) predictions of an
evaluation pass have been processed. -/
def lockAt (thrs : List ℚ) (gt : List GtInst) (sorted : List PredInst)
    (k : Nat) : List (List ℤ) :=
  (runMatchFrom thrs gt (initLock thrs gt) (sorted.enum.take k)).2

/-- A well-formed matrix cell: the prediction is marked exactly one of true
positive and false positive, and a false positive carries no latency. -/
def MarkOK (m : Mark) : Prop :=
  (m.tp = 1 ∧ m.fp = 0) ∨ (m.tp = 0 ∧ m.fp = 1 ∧ m.td = 0)

/-- Sum of the recorded latencies over the true positives of threshold row
`t`. -/
def tpLatencySum (marks : List (List Mark)) (t : Nat) : ℚ :=
  (marks.map (fun ms =>
    if (ms.getD t default).tp = 1 then (ms.getD t default).td else 0)).sum

/-- `sort_idx = prediction['score'].values.argsort()[::-1]`. -/
def sortIdx (preds : List PredInst) : List Nat :=
  argsortDesc (fun i => (preds.getD i default).score) preds.length

/-- `prediction = prediction.loc[sort_idx].reset_index(drop=True)`. -/
def sortPredictions (preds : List PredInst) : List PredInst :=
  (sortIdx preds).map (fun i => preds.getD i default)

/-- Running partial sums with an accumulator. -/
def cumsumFrom (acc : ℚ) : List ℚ → List ℚ
  | [] => []
  | x :: xs => (acc + x) :: cumsumFrom (acc + x) xs

/-- `np.cumsum`. -/
def cumsum (l : List ℚ) : List ℚ := cumsumFrom 0 l

/-- Row `tidx` of the `tp` matrix (one entry per prediction, score-sorted). -/
def tpRow (marks : List (List Mark)) (t : Nat) : List ℚ :=
  marks.map (fun ms => (ms.getD t default).tp)

/-- Row `tidx` of the `fp` matrix. -/
def fpRow (marks : List (List Mark)) (t : Nat) : List ℚ :=
  marks.map (fun ms => (ms.getD t default).fp)

/-- Row `tidx` of the `timediff` matrix. -/
def tdRow (marks : List (List Mark)) (t : Nat) : List ℚ :=
  marks.map (fun ms => (ms.getD t default).td)

/-- `compute_average_precision_detection`.  `interp` stands for
`utils.interpolated_prec_rec` (external, not among the sources), taken as a
parameter; the result triple is `(ap, tdiff, cnt_tp)`, one entry per tIoU
threshold.  On rationals the division `this_tp / (this_tp + this_fp)` can
never produce NaN (`x / 0 = 0` here, which is also exactly what the
`np.nan_to_num` fix yields), and the trailing NaN/Inf patches on `tdiff`
are the identity. -/
def compute_average_precision_detection (interp : List ℚ → List ℚ → ℚ)
    (thrs : List ℚ) (gt : List GtInst) (preds : List PredInst) :
    List ℚ × List ℚ × List ℚ :=
  if preds.isEmpty ∨ gt.isEmpty then
    (List.replicate thrs.length 0, List.replicate thrs.length 0,
     List.replicate thrs.length 0)
  else
    let npos : ℚ := (gt.length : ℚ)
    let sorted := sortPredictions preds
    let marks := (runMatch thrs gt sorted).1
    let ap := (List.range thrs.length).map (fun t =>
      let thisTp := cumsum (tpRow marks t)
      let thisFp := cumsum (fpRow marks t)
      let rcl := thisTp.map (fun x => x / npos)
      let prc := List.zipWith (fun x y => x / (x + y)) thisTp thisFp
      interp prc rcl)
    let tdiff := (List.range thrs.length).map (fun t =>
      let thisTp := cumsum (tpRow marks t)
      let thisTd := cumsum (tdRow marks t)
      if thisTd.length = 0 ∨ thisTp.getLast?.getD 0 = 0 then 0
      else thisTd.getLast?.getD 0)
    let cnt := (List.range thrs.length).map (fun t =>
      (cumsum (tpRow marks t)).getLast?.getD 0)
    (ap, tdiff, cnt)

/-- Lines 159–170 of `wrapper_compute_average_precision`: per threshold,
`final_tdiff = sum_tdiff / total_tp` where `total_tp > 0`, else `0`
(`sum_tdiff`, `total_tp` are the sums over the per-class columns). -/
def wrapperFinalTdiff (tdiffCols : List (List ℚ)) (cntCols : List (List ℚ))
    (nthr : Nat) : List ℚ :=
  (List.range nthr).map (fun t =>
    let s := (tdiffCols.map (fun c => c.getD t 0)).sum
    let n := (cntCols.map (fun c => c.getD t 0)).sum
    if 0 < n then s / n else 0)

/-- A decoded candidate: one `tmp_dict` of `eval_map_nms` /
`eval_map_supnet` / `test_online` (`segment`, `score`, `label`,
`gentime`).  The label string `dataset.label_name[label]` is abstracted to
the class index itself. -/
structure Cand where
  segStart : ℚ
  segEnd : ℚ
  score : ℚ
  label : Nat
  gentime : ℚ
deriving DecidableEq

instance : Inhabited Cand := ⟨⟨0, 0, 0, 0, 0⟩⟩

/-- Per-anchor decoding (the body of `for anc_idx in range(0, len(anchors))`):
`cls = np.argwhere(cls_anc[anc_idx][:-1] > threshold)` (strictly greater,
background class excluded), then one candidate per selected class with
`ed = idx + anchor * reg[0]`, `length = anchor * exp(reg[1])`,
`st = ed - length`, segment coordinates and gentime scaled by
`frame_to_time / 100`.  `expF` abstracts `np.exp` (a transcendental, kept
as a function parameter). -/
def decodeAnchor (expF : ℚ → ℚ) (idx : Nat) (numClass : Nat)
    (clsScores : Nat → ℚ) (reg0 reg1 : ℚ) (anchor : ℚ) (threshold : ℚ)
    (frameToTime : ℚ) : List Cand :=
  let cls := (List.range (numClass - 1)).filter (fun l => decide (threshold < clsScores l))
  if cls.isEmpty then []
  else
    let ed : ℚ := (idx : ℚ) + anchor * reg0
    let len : ℚ := anchor * expF reg1
    let st : ℚ := ed - len
    cls.map (fun label =>
      ⟨st * frameToTime / 100, ed * frameToTime / 100, clsScores label, label,
       (idx : ℚ) * frameToTime / 100⟩)

/-- The whole-frame candidate pool: the anchor loop appending each anchor's
candidates to `proposal_anc_dict`. -/
def decodeFrame (expF : ℚ → ℚ) (idx : Nat) (numClass : Nat)
    (clsAnc : Nat → Nat → ℚ) (reg : Nat → ℚ × ℚ) (anchors : List ℚ)
    (threshold frameToTime : ℚ) : List Cand :=
  (List.range anchors.length).foldl (fun acc a =>
    acc ++ decodeAnchor expF idx numClass (clsAnc a) (reg a).1 (reg a).2
      (anchors.getD a 0) threshold frameToTime) []

/-- A proposal in the online refiner's accepted set (`proposal_dict`
entry); the label string is abstracted to its class index. -/
structure Proposal where
  label : Nat
  segStart : ℚ
  segEnd : ℚ
  score : ℚ
deriving DecidableEq

instance : Inhabited Proposal := ⟨⟨0, 0, 0, 0⟩⟩

/-- Modelled from the spec: `check_overlap_proposal` lives in
`iou_utils.py`, which is not among the sources.  Spec §4.4: a proposal is
appended "if it does not overlap (tIoU > overlap_threshold) any entry
already in AcceptedSet"; the call site tests the result against `None`, so
this returns the first accepted proposal whose tIoU with `p` exceeds the
threshold, `none` when there is none. -/
def check_overlap_proposal (acc : List Proposal) (p : Proposal) (thr : ℚ) :
    Option Proposal :=
  acc.find? (fun q =>
    decide (thr < segment_iou (q.segStart, q.segEnd) (p.segStart, p.segEnd)))

/-- Innermost accept step of `eval_map_supnet` / `test_online`: a proposal
of the gated class is appended when `check_overlap_proposal` returns
`None`. -/
def considerProposal (overlapThr : ℚ) (cls : Nat) (acc : List Proposal)
    (p : Proposal) : List Proposal :=
  if p.label = cls then
    if check_overlap_proposal acc p overlapThr = none then acc ++ [p] else acc
  else acc

/-- `for proposal in proposal_anc_dict: ...` for one gated class. -/
def acceptClass (overlapThr : ℚ) (cls : Nat) (pool : List Proposal)
    (acc : List Proposal) : List Proposal :=
  pool.foldl (considerProposal overlapThr cls) acc

/-- `for cls in range(0, num_class - 1): if suppress_conf[cls] > sup_threshold: ...`
for one frame: `supConf` is the gate score vector SuppressNet returned for
the frame's confidence window. -/
def acceptFrame (numClass : Nat) (supConf : Nat → ℚ) (supThr overlapThr : ℚ)
    (pool : List Proposal) (acc : List Proposal) : List Proposal :=
  (List.range (numClass - 1)).foldl (fun a cls =>
    if supThr < supConf cls then acceptClass overlapThr cls pool a else a) acc

/-- The frame loop of one video: each frame contributes its suppressed pool
and its gate scores; the accepted set starts empty. -/
def processVideo (numClass : Nat) (supThr overlapThr : ℚ)
    (frames : List (List Proposal × (Nat → ℚ))) : List Proposal :=
  frames.foldl (fun a f => acceptFrame numClass f.2 supThr overlapThr f.1 a) []

/-- The video loop of `test_online` with its mutable `proposal_dict`:
process the video's frames from the carried accepted set, store the result,
then reset the accepted set to `[]` for the next video. -/
def processVideosLoop (numClass : Nat) (supThr overlapThr : ℚ)
    (videos : List (List (List Proposal × (Nat → ℚ)))) : List (List Proposal) :=
  (videos.foldl (fun (st : List (List Proposal) × List Proposal) v =>
    let acc := v.foldl (fun a f => acceptFrame numClass f.2 supThr overlapThr f.1 a) st.2
    (st.1 ++ [acc], [])) ([], [])).1

/-- Accumulator step of `_import_ground_truth`'s activity-index loop:
`if ann['label'] not in activity_index: activity_index[ann['label']] = cidx;
cidx += 1` (Python dicts preserve insertion order, modelled as an
association list extended at the back). -/
def buildAIAux : List (String × Nat) × Nat → List String → List (String × Nat) × Nat
  | st, [] => st
  | st, l :: ls =>
    buildAIAux (if l ∈ st.1.map Prod.fst then st else (st.1 ++ [(l, st.2)], st.2 + 1)) ls

/-- `activity_index` and `cidx` as built by `_import_ground_truth` from the
sequence of annotation label strings in load order. -/
def buildActivityIndex (labels : List String) : List (String × Nat) × Nat :=
  buildAIAux ([], 0) labels

/-- Helper fold for first-occurrence deduplication. -/
def dedupFirstAux : List String → List String → List String
  | acc, [] => acc
  | acc, l :: ls => dedupFirstAux (if l ∈ acc then acc else acc ++ [l]) ls

/-- The label list with duplicates dropped, first occurrences kept in
order. -/
def dedupFirst (labels : List String) : List String := dedupFirstAux [] labels

/-- The AP/latency/tp-count columns written by the loop of
`wrapper_compute_average_precision` (`ap[:, cidx] = ...`), in iteration
order over `activity_index.items()`. -/
def wrapperColumns (idx : List (String × Nat)) : List Nat := idx.map Prod.snd

/-! ### List helpers -/

theorem getD_set_same {α : Type} (l : List α) (n : Nat) (a d : α)
    (h : n < l.length) : (l.set n a).getD n d = a := by
  simp [List.getD_eq_getElem?_getD, List.getElem?_set_self h]

theorem getD_set_other {α : Type} (l : List α) (m n : Nat) (a d : α)
    (h : m ≠ n) : (l.set m a).getD n d = l.getD n d := by
  simp [List.getD_eq_getElem?_getD, List.getElem?_set_ne h]

theorem getD_map_range {α : Type} (f : Nat → α) (n t : Nat) (d : α)
    (h : t < n) : ((List.range n).map f).getD t d = f t := by
  simp [List.getD_eq_getElem?_getD, List.getElem?_map, List.getElem?_range h]

theorem getD_replicate_self {α : Type} (a d : α) (n t : Nat) (h : t < n) :
    (List.replicate n a).getD t d = a := by
  simp [List.getD_eq_getElem?_getD, List.getElem?_replicate, h]

/-! ### The argsort model: permutation, sortedness, tie order -/

theorem mem_insertByAsc (key : Nat → ℚ) (i : Nat) (l : List Nat) (a : Nat) :
    a ∈ insertByAsc key i l ↔ a = i ∨ a ∈ l := by
  induction l with
  | nil => simp [insertByAsc]
  | cons j js ih =>
    by_cases h : key i < key j <;> simp [insertByAsc, h, ih] <;> tauto

theorem insertByAsc_perm (key : Nat → ℚ) (i : Nat) (l : List Nat) :
    (insertByAsc key i l).Perm (i :: l) := by
  induction l with
  | nil => simp [insertByAsc]
  | cons j js ih =>
    by_cases h : key i < key j
    · simp [insertByAsc, h]
    · simp only [insertByAsc, if_neg h]
      exact (ih.cons j).trans (List.Perm.swap i j js)

theorem sorted_insertByAsc (key : Nat → ℚ) (i : Nat) (l : List Nat)
    (h : l.Pairwise (fun a b => key a ≤ key b)) :
    (insertByAsc key i l).Pairwise (fun a b => key a ≤ key b) := by
  induction l with
  | nil => simp [insertByAsc]
  | cons j js ih =>
    rcases List.pairwise_cons.mp h with ⟨hj, hjs⟩
    by_cases hc : key i < key j
    · simp only [insertByAsc, if_pos hc]
      refine List.pairwise_cons.mpr ⟨?_, h⟩
      intro b hb
      rcases List.mem_cons.mp hb with hb | hb
      · exact hb ▸ le_of_lt hc
      · exact le_trans (le_of_lt hc) (hj b hb)
    · simp only [insertByAsc, if_neg hc]
      refine List.pairwise_cons.mpr ⟨?_, ih hjs⟩
      intro b hb
      rcases (mem_insertByAsc key i js b).mp hb with hb | hb
      · exact hb ▸ le_of_not_lt hc
      · exact hj b hb

theorem argsortAsc_perm (key : Nat → ℚ) (n : Nat) :
    (argsortAsc key n).Perm (List.range n) := by
  induction n with
  | zero => simp [argsortAsc]
  | succ n ih =>
    have h1 : (argsortAsc key (n + 1)).Perm (n :: argsortAsc key n) :=
      insertByAsc_perm key n (argsortAsc key n)
    have h2 : (n :: argsortAsc key n).Perm (n :: List.range n) := ih.cons n
    have h3 : (n :: List.range n).Perm (List.range (n + 1)) := by
      rw [List.range_succ]
      exact (List.perm_append_singleton n (List.range n)).symm
    exact (h1.trans h2).trans h3

theorem mem_argsortAsc (key : Nat → ℚ) (n i : Nat) :
    i ∈ argsortAsc key n ↔ i < n := by
  rw [(argsortAsc_perm key n).mem_iff, List.mem_range]

theorem sorted_argsortAsc (key : Nat → ℚ) (n : Nat) :
    (argsortAsc key n).Pairwise (fun a b => key a ≤ key b) := by
  induction n with
  | zero => simp [argsortAsc]
  | succ n ih => exact sorted_insertByAsc key n (argsortAsc key n) ih

theorem argsortDesc_perm (key : Nat → ℚ) (n : Nat) :
    (argsortDesc key n).Perm (List.range n) :=
  (List.reverse_perm _).trans (argsortAsc_perm key n)

theorem mem_argsortDesc (key : Nat → ℚ) (n i : Nat) :
    i ∈ argsortDesc key n ↔ i < n := by
  rw [(argsortDesc_perm key n).mem_iff, List.mem_range]

theorem sorted_argsortDesc (key : Nat → ℚ) (n : Nat) :
    (argsortDesc key n).Pairwise (fun a b => key b ≤ key a) := by
  unfold argsortDesc
  rw [List.pairwise_reverse]
  exact sorted_argsortAsc key n

theorem length_argsortDesc (key : Nat → ℚ) (n : Nat) :
    (argsortDesc key n).length = n := by
  rw [(argsortDesc_perm key n).length_eq, List.length_range]

/-! ### Walk characterisation -/

theorem walkGt_tpAt_mem (tiou : Nat → ℚ) (thr : ℚ) (row : List ℤ)
    (orig : Nat → Nat) (l : List Nat) (j : Nat)
    (h : walkGt tiou thr row orig l = .tpAt j) :
    j ∈ l ∧ thr ≤ tiou j ∧ row.getD (orig j) (-1) < 0 := by
  induction l with
  | nil => simp [walkGt] at h
  | cons a as ih =>
    simp only [walkGt] at h
    by_cases h1 : tiou a < thr
    · simp [h1] at h
    · rw [if_neg h1] at h
      by_cases h2 : 0 ≤ row.getD (orig a) (-1)
      · rw [if_pos h2] at h
        obtain ⟨hm, hle, hlk⟩ := ih h
        exact ⟨List.mem_cons_of_mem a hm, hle, hlk⟩
      · rw [if_neg h2] at h
        injection h with h
        subst h
        exact ⟨List.mem_cons_self a as, le_of_not_lt h1, lt_of_not_le h2⟩

theorem walkGt_tpAt_max (tiou : Nat → ℚ) (thr : ℚ) (row : List ℤ)
    (orig : Nat → Nat) (l : List Nat) (j : Nat)
    (hsort : l.Pairwise (fun a b => tiou b ≤ tiou a))
    (h : walkGt tiou thr row orig l = .tpAt j) :
    ∀ j' ∈ l, row.getD (orig j') (-1) < 0 → tiou j' ≤ tiou j := by
  induction l with
  | nil => simp [walkGt] at h
  | cons a as ih =>
    obtain ⟨ha, has⟩ := List.pairwise_cons.mp hsort
    simp only [walkGt] at h
    by_cases h1 : tiou a < thr
    · simp [h1] at h
    · rw [if_neg h1] at h
      by_cases h2 : 0 ≤ row.getD (orig a) (-1)
      · rw [if_pos h2] at h
        intro j' hj' hunlock
        rcases List.mem_cons.mp hj' with hj' | hj'
        · exact absurd (hj' ▸ hunlock) (not_lt.mpr h2)
        · exact ih has h j' hj' hunlock
      · rw [if_neg h2] at h
        injection h with h
        subst h
        intro j' hj' _
        rcases List.mem_cons.mp hj' with hj' | hj'
        · exact le_of_eq (congrArg tiou hj')
        · exact ha j' hj'

theorem walkGt_noTp_of_all (tiou : Nat → ℚ) (thr : ℚ) (row : List ℤ)
    (orig : Nat → Nat) (l : List Nat)
    (hall : ∀ j ∈ l, tiou j < thr ∨ 0 ≤ row.getD (orig j) (-1)) :
    walkGt tiou thr row orig l = .fpBreak ∨ walkGt tiou thr row orig l = .exhaust := by
  induction l with
  | nil => exact Or.inr rfl
  | cons a as ih =>
    simp only [walkGt]
    by_cases h1 : tiou a < thr
    · rw [if_pos h1]
      exact Or.inl rfl
    · rw [if_neg h1]
      have h2 : 0 ≤ row.getD (orig a) (-1) := by
        rcases hall a (List.mem_cons_self a as) with hc | hc
        · exact absurd hc h1
        · exact hc
      rw [if_pos h2]
      exact ih (fun j hj => hall j (List.mem_cons_of_mem a hj))

theorem walkGt_all_of_noTp (tiou : Nat → ℚ) (thr : ℚ) (row : List ℤ)
    (orig : Nat → Nat) (l : List Nat)
    (hsort : l.Pairwise (fun a b => tiou b ≤ tiou a))
    (h : walkGt tiou thr row orig l = .fpBreak ∨
         walkGt tiou thr row orig l = .exhaust) :
    ∀ j ∈ l, tiou j < thr ∨ 0 ≤ row.getD (orig j) (-1) := by
  induction l with
  | nil => intro j hj; cases hj
  | cons a as ih =>
    obtain ⟨ha, has⟩ := List.pairwise_cons.mp hsort
    by_cases h1 : tiou a < thr
    · intro j hj
      rcases List.mem_cons.mp hj with hj | hj
      · exact Or.inl (hj ▸ h1)
      · exact Or.inl (lt_of_le_of_lt (ha j hj) h1)
    · by_cases h2 : 0 ≤ row.getD (orig a) (-1)
      · intro j hj
        rcases List.mem_cons.mp hj with hj | hj
        · exact Or.inr (hj ▸ h2)
        · have h' : walkGt tiou thr row orig as = .fpBreak ∨
              walkGt tiou thr row orig as = .exhaust := by
            simpa only [walkGt, if_neg h1, if_pos h2] using h
          exact ih has h' j hj
      · exfalso
        simp only [walkGt, if_neg h1, if_neg h2] at h
        rcases h with h | h <;> exact WalkRes.noConfusion h

/-! ### One (prediction, threshold) step -/

theorem stepThr_snd_of_not_tp (i : Nat) (p : PredInst) (g : List (Nat × GtInst))
    (thr : ℚ) (row : List ℤ)
    (h : walkGt (tiouOf p g) thr row (origOf g) (argsortDesc (tiouOf p g) g.length) = .fpBreak ∨
         walkGt (tiouOf p g) thr row (origOf g) (argsortDesc (tiouOf p g) g.length) = .exhaust) :
    (stepThr i p g thr row).1 = fpMark ∧ (stepThr i p g thr row).2 = row := by
  rcases h with h | h <;> · unfold stepThr; simp only [h]; norm_num [fpMark]

theorem stepThr_of_tpAt (i : Nat) (p : PredInst) (g : List (Nat × GtInst))
    (thr : ℚ) (row : List ℤ) (j : Nat)
    (h : walkGt (tiouOf p g) thr row (origOf g) (argsortDesc (tiouOf p g) g.length) = .tpAt j) :
    (stepThr i p g thr row).1 = ⟨1, 0, sanitizeGentime p.gentime - endOf g j⟩ ∧
    (stepThr i p g thr row).2 = row.set (origOf g j) (i : ℤ) := by
  unfold stepThr
  simp only [h]
  norm_num

theorem stepThr_fpMark_iff (i : Nat) (p : PredInst) (g : List (Nat × GtInst))
    (thr : ℚ) (row : List ℤ) :
    (stepThr i p g thr row).1 = fpMark ↔
      ∀ j < g.length, tiouOf p g j < thr ∨ 0 ≤ row.getD (origOf g j) (-1) := by
  constructor
  · intro h
    cases hw : walkGt (tiouOf p g) thr row (origOf g)
        (argsortDesc (tiouOf p g) g.length) with
    | tpAt j =>
      exfalso
      have := (stepThr_of_tpAt i p g thr row j hw).1
      rw [this] at h
      simp [fpMark, Mark.mk.injEq] at h
    | fpBreak =>
      intro j hj
      exact walkGt_all_of_noTp (tiouOf p g) thr row (origOf g) _
        (sorted_argsortDesc (tiouOf p g) g.length) (Or.inl hw) j
        ((mem_argsortDesc (tiouOf p g) g.length j).mpr hj)
    | exhaust =>
      intro j hj
      exact walkGt_all_of_noTp (tiouOf p g) thr row (origOf g) _
        (sorted_argsortDesc (tiouOf p g) g.length) (Or.inr hw) j
        ((mem_argsortDesc (tiouOf p g) g.length j).mpr hj)
  · intro hall
    have h := walkGt_noTp_of_all (tiouOf p g) thr row (origOf g)
      (argsortDesc (tiouOf p g) g.length)
      (fun j hj => hall j ((mem_argsortDesc (tiouOf p g) g.length j).mp hj))
    exact (stepThr_snd_of_not_tp i p g thr row h).1

theorem stepThr_tp_spec (i : Nat) (p : PredInst) (g : List (Nat × GtInst))
    (thr : ℚ) (row : List ℤ) (h : (stepThr i p g thr row).1 ≠ fpMark) :
    ∃ j < g.length, thr ≤ tiouOf p g j ∧ row.getD (origOf g j) (-1) < 0 ∧
      (∀ j' < g.length, row.getD (origOf g j') (-1) < 0 →
        tiouOf p g j' ≤ tiouOf p g j) ∧
      (stepThr i p g thr row).1 = ⟨1, 0, sanitizeGentime p.gentime - endOf g j⟩ ∧
      (stepThr i p g thr row).2 = row.set (origOf g j) (i : ℤ) := by
  cases hw : walkGt (tiouOf p g) thr row (origOf g)
      (argsortDesc (tiouOf p g) g.length) with
  | fpBreak => exact absurd (stepThr_snd_of_not_tp i p g thr row (Or.inl hw)).1 h
  | exhaust => exact absurd (stepThr_snd_of_not_tp i p g thr row (Or.inr hw)).1 h
  | tpAt j =>
    obtain ⟨hmem, hle, hlk⟩ := walkGt_tpAt_mem (tiouOf p g) thr row (origOf g) _ j hw
    have hmax := walkGt_tpAt_max (tiouOf p g) thr row (origOf g) _ j
      (sorted_argsortDesc (tiouOf p g) g.length) hw
    refine ⟨j, (mem_argsortDesc (tiouOf p g) g.length j).mp hmem, hle, hlk, ?_, ?_, ?_⟩
    · intro j' hj' hu
      exact hmax j' ((mem_argsortDesc (tiouOf p g) g.length j').mpr hj') hu
    · exact (stepThr_of_tpAt i p g thr row j hw).1
    · exact (stepThr_of_tpAt i p g thr row j hw).2

theorem stepThr_markOK (i : Nat) (p : PredInst) (g : List (Nat × GtInst))
    (thr : ℚ) (row : List ℤ) : MarkOK (stepThr i p g thr row).1 := by
  cases hw : walkGt (tiouOf p g) thr row (origOf g)
      (argsortDesc (tiouOf p g) g.length) with
  | fpBreak =>
    rw [(stepThr_snd_of_not_tp i p g thr row (Or.inl hw)).1]
    exact Or.inr ⟨rfl, rfl, rfl⟩
  | exhaust =>
    rw [(stepThr_snd_of_not_tp i p g thr row (Or.inr hw)).1]
    exact Or.inr ⟨rfl, rfl, rfl⟩
  | tpAt j =>
    rw [(stepThr_of_tpAt i p g thr row j hw).1]
    exact Or.inl ⟨rfl, rfl⟩

theorem stepThr_length (i : Nat) (p : PredInst) (g : List (Nat × GtInst))
    (thr : ℚ) (row : List ℤ) : (stepThr i p g thr row).2.length = row.length := by
  cases hw : walkGt (tiouOf p g) thr row (origOf g)
      (argsortDesc (tiouOf p g) g.length) with
  | fpBreak => rw [(stepThr_snd_of_not_tp i p g thr row (Or.inl hw)).2]
  | exhaust => rw [(stepThr_snd_of_not_tp i p g thr row (Or.inr hw)).2]
  | tpAt j =>
    rw [(stepThr_of_tpAt i p g thr row j hw).2]
    exact List.length_set row _ _

theorem stepThr_locked (i : Nat) (p : PredInst) (g : List (Nat × GtInst))
    (thr : ℚ) (row : List ℤ) (gidx : Nat) (hlk : 0 ≤ row.getD gidx (-1)) :
    (stepThr i p g thr row).2.getD gidx (-1) = row.getD gidx (-1) := by
  cases hw : walkGt (tiouOf p g) thr row (origOf g)
      (argsortDesc (tiouOf p g) g.length) with
  | fpBreak => rw [(stepThr_snd_of_not_tp i p g thr row (Or.inl hw)).2]
  | exhaust => rw [(stepThr_snd_of_not_tp i p g thr row (Or.inr hw)).2]
  | tpAt j =>
    rw [(stepThr_of_tpAt i p g thr row j hw).2]
    have hne : origOf g j ≠ gidx := by
      intro he
      have := (walkGt_tpAt_mem (tiouOf p g) thr row (origOf g) _ j hw).2.2
      rw [he] at this
      exact absurd hlk (not_le.mpr this)
    exact getD_set_other row _ _ _ _ hne

theorem getD_map_lt {α β : Type} (f : α → β) (l : List α) (t : Nat) (d : β)
    (e : α) (h : t < l.length) : (l.map f).getD t d = f (l.getD t e) := by
  simp [List.getD_eq_getElem?_getD, List.getElem?_map, List.getElem?_eq_getElem h]

/-! ### The threshold loop: lengths, lock persistence, row independence -/

theorem stepPredThrs_length (i : Nat) (p : PredInst) (g : List (Nat × GtInst))
    (pairs : List (Nat × ℚ)) (lock : List (List ℤ)) :
    (stepPredThrs i p g lock pairs).2.length = lock.length := by
  induction pairs generalizing lock with
  | nil => rfl
  | cons q rest ih =>
    obtain ⟨tidx, thr⟩ := q
    simp only [stepPredThrs]
    rw [ih]
    exact List.length_set lock tidx _

theorem stepPredThrs_locked (i : Nat) (p : PredInst) (g : List (Nat × GtInst))
    (pairs : List (Nat × ℚ)) (lock : List (List ℤ)) (t gidx : Nat)
    (h : 0 ≤ (lock.getD t []).getD gidx (-1)) :
    ((stepPredThrs i p g lock pairs).2.getD t []).getD gidx (-1) =
      (lock.getD t []).getD gidx (-1) := by
  induction pairs generalizing lock with
  | nil => rfl
  | cons q rest ih =>
    obtain ⟨tidx, thr⟩ := q
    simp only [stepPredThrs]
    by_cases htx : tidx = t
    · subst htx
      by_cases hlen : tidx < lock.length
      · have hrow : (lock.set tidx (stepThr i p g thr (lock.getD tidx [])).2).getD tidx [] =
            (stepThr i p g thr (lock.getD tidx [])).2 := getD_set_same lock tidx _ [] hlen
        have hpres := stepThr_locked i p g thr (lock.getD tidx []) gidx h
        have h' : 0 ≤ ((lock.set tidx (stepThr i p g thr (lock.getD tidx [])).2).getD tidx []).getD gidx (-1) := by
          rw [hrow, hpres]; exact h
        rw [ih _ h', hrow, hpres]
      · rw [List.set_eq_of_length_le (le_of_not_lt hlen)]
        exact ih lock h
    · have hrow : (lock.set tidx (stepThr i p g thr (lock.getD tidx [])).2).getD t [] =
          lock.getD t [] := getD_set_other lock tidx t _ [] htx
      have h' : 0 ≤ ((lock.set tidx (stepThr i p g thr (lock.getD tidx [])).2).getD t []).getD gidx (-1) := by
        rw [hrow]; exact h
      rw [ih _ h', hrow]

theorem stepPredThrs_untouched (i : Nat) (p : PredInst) (g : List (Nat × GtInst))
    (pairs : List (Nat × ℚ)) (lock : List (List ℤ)) (t : Nat)
    (h : ∀ q ∈ pairs, (q : Nat × ℚ).1 ≠ t) :
    (stepPredThrs i p g lock pairs).2.getD t [] = lock.getD t [] := by
  induction pairs generalizing lock with
  | nil => rfl
  | cons q rest ih =>
    obtain ⟨tidx, thr⟩ := q
    simp only [stepPredThrs]
    rw [ih _ (fun q hq => h q (List.mem_cons_of_mem _ hq))]
    exact getD_set_other lock tidx t _ [] (h (tidx, thr) (List.mem_cons_self _ _))

theorem stepPredThrs_proj (i : Nat) (p : PredInst) (g : List (Nat × GtInst))
    (l : List ℚ) (s : Nat) (lock : List (List ℤ)) (t : Nat)
    (h1 : s ≤ t) (h2 : t < s + l.length) (h3 : t < lock.length) :
    (stepPredThrs i p g lock (List.enumFrom s l)).2.getD t [] =
      (stepThr i p g (l.getD (t - s) 0) (lock.getD t [])).2 ∧
    (stepPredThrs i p g lock (List.enumFrom s l)).1.getD (t - s) default =
      (stepThr i p g (l.getD (t - s) 0) (lock.getD t [])).1 := by
  induction l generalizing s lock with
  | nil =>
    exfalso
    simp only [List.length_nil] at h2
    omega
  | cons thr rest ih =>
    simp only [List.enumFrom_cons, stepPredThrs]
    by_cases hts : t = s
    · subst hts
      have hnt : ∀ q ∈ List.enumFrom (t + 1) rest, (q : Nat × ℚ).1 ≠ t := by
        intro q hq
        obtain ⟨a, b⟩ := q
        have := (List.mem_enumFrom hq).1
        omega
      constructor
      · rw [stepPredThrs_untouched i p g _ _ t hnt,
          getD_set_same lock t _ [] h3]
        simp
      · simp
    · have hst : t - s = (t - (s + 1)) + 1 := by omega
      have h2' : t < (s + 1) + rest.length := by
        simp only [List.length_cons] at h2
        omega
      have ihh := ih (s + 1) (lock.set s (stepThr i p g thr (lock.getD s [])).2)
        (by omega) h2' (by rw [List.length_set]; exact h3)
      have hrow : (lock.set s (stepThr i p g thr (lock.getD s [])).2).getD t [] =
          lock.getD t [] := getD_set_other lock s t _ [] (fun he => hts he.symm)
      constructor
      · rw [ihh.1, hrow, hst, List.getD_cons_succ]
      · rw [hst, List.getD_cons_succ, ihh.2, hrow, List.getD_cons_succ]

/-! ### The prediction loop: lengths, lock persistence, row independence -/

theorem stepPred_length (thrs : List ℚ) (i : Nat) (p : PredInst)
    (gt : List GtInst) (lock : List (List ℤ)) :
    (stepPred thrs i p gt lock).2.length = lock.length := by
  unfold stepPred
  by_cases hg : (gtGroup gt p.videoId).isEmpty
  · simp [hg]
  · simp only [if_neg hg]
    exact stepPredThrs_length i p _ _ lock

theorem stepPred_locked (thrs : List ℚ) (i : Nat) (p : PredInst)
    (gt : List GtInst) (lock : List (List ℤ)) (t gidx : Nat)
    (h : 0 ≤ lockRead lock t gidx) :
    lockRead (stepPred thrs i p gt lock).2 t gidx = lockRead lock t gidx := by
  unfold stepPred lockRead
  by_cases hg : (gtGroup gt p.videoId).isEmpty
  · simp [hg]
  · simp only [if_neg hg]
    exact stepPredThrs_locked i p _ _ lock t gidx h

theorem stepPred_proj (thrs : List ℚ) (i : Nat) (p : PredInst)
    (gt : List GtInst) (lock : List (List ℤ)) (t : Nat)
    (ht : t < thrs.length) (hlen : t < lock.length) :
    (stepPred thrs i p gt lock).2.getD t [] =
      (stepPredRow (thrs.getD t 0) i p gt (lock.getD t [])).2 ∧
    (stepPred thrs i p gt lock).1.getD t default =
      (stepPredRow (thrs.getD t 0) i p gt (lock.getD t [])).1 := by
  unfold stepPred stepPredRow
  by_cases hg : (gtGroup gt p.videoId).isEmpty
  · constructor
    · simp [hg]
    · simp only [hg, if_true]
      exact getD_map_lt (fun _ => fpMark) thrs t default 0 ht
  · simp only [hg, if_false, Bool.false_eq_true]
    have h := stepPredThrs_proj i p (gtGroup gt p.videoId) thrs 0 lock t
      (Nat.zero_le t) (by simpa using ht) hlen
    simpa using h

theorem runMatchFrom_locked (thrs : List ℚ) (gt : List GtInst)
    (pairs : List (Nat × PredInst)) (lock : List (List ℤ)) (t gidx : Nat)
    (h : 0 ≤ lockRead lock t gidx) :
    lockRead (runMatchFrom thrs gt lock pairs).2 t gidx = lockRead lock t gidx := by
  induction pairs generalizing lock with
  | nil => rfl
  | cons q rest ih =>
    obtain ⟨i, p⟩ := q
    simp only [runMatchFrom]
    have hs := stepPred_locked thrs i p gt lock t gidx h
    have h' : 0 ≤ lockRead (stepPred thrs i p gt lock).2 t gidx := by
      rw [hs]; exact h
    rw [ih _ h', hs]

theorem runMatchFrom_append (thrs : List ℚ) (gt : List GtInst)
    (l₁ l₂ : List (Nat × PredInst)) (lock : List (List ℤ)) :
    (runMatchFrom thrs gt lock (l₁ ++ l₂)).2 =
      (runMatchFrom thrs gt (runMatchFrom thrs gt lock l₁).2 l₂).2 := by
  induction l₁ generalizing lock with
  | nil => rfl
  | cons q rest ih =>
    obtain ⟨i, p⟩ := q
    simp only [List.cons_append, runMatchFrom]
    exact ih _

theorem runMatchFrom_length (thrs : List ℚ) (gt : List GtInst)
    (pairs : List (Nat × PredInst)) (lock : List (List ℤ)) :
    (runMatchFrom thrs gt lock pairs).2.length = lock.length := by
  induction pairs generalizing lock with
  | nil => rfl
  | cons q rest ih =>
    obtain ⟨i, p⟩ := q
    simp only [runMatchFrom]
    rw [ih, stepPred_length]

theorem runMatchFrom_proj (thrs : List ℚ) (gt : List GtInst)
    (pairs : List (Nat × PredInst)) (lock : List (List ℤ)) (t : Nat)
    (ht : t < thrs.length) (hlen : lock.length = thrs.length) :
    (runMatchFrom thrs gt lock pairs).2.getD t [] =
      (runMatchRowFrom (thrs.getD t 0) gt (lock.getD t []) pairs).2 ∧
    (runMatchFrom thrs gt lock pairs).1.map (fun ms => ms.getD t default) =
      (runMatchRowFrom (thrs.getD t 0) gt (lock.getD t []) pairs).1 := by
  induction pairs generalizing lock with
  | nil => exact ⟨rfl, rfl⟩
  | cons q rest ih =>
    obtain ⟨i, p⟩ := q
    simp only [runMatchFrom, runMatchRowFrom, List.map_cons]
    have hp := stepPred_proj thrs i p gt lock t ht (by rw [hlen]; exact ht)
    have ihh := ih (stepPred thrs i p gt lock).2
      (by rw [stepPred_length]; exact hlen)
    rw [hp.1] at ihh
    exact ⟨ihh.1, by rw [hp.2, ihh.2]⟩

theorem lockAt_mono (thrs : List ℚ) (gt : List GtInst) (sorted : List PredInst)
    (k k' t gidx : Nat) (hk : k ≤ k')
    (h : 0 ≤ lockRead (lockAt thrs gt sorted k) t gidx) :
    lockRead (lockAt thrs gt sorted k') t gidx =
      lockRead (lockAt thrs gt sorted k) t gidx := by
  unfold lockAt
  have hsplit : sorted.enum.take k' =
      sorted.enum.take k ++ (sorted.enum.drop k).take (k' - k) := by
    conv_lhs => rw [show k' = k + (k' - k) from by omega]
    exact List.take_add sorted.enum k (k' - k)
  rw [hsplit, runMatchFrom_append]
  exact runMatchFrom_locked thrs gt _ _ t gidx h

/-! ### Mark matrix invariants -/

theorem getD_mem_of_lt {α : Type} (l : List α) (n : Nat) (d : α)
    (h : n < l.length) : l.getD n d ∈ l := by
  rw [List.getD_eq_getElem?_getD, List.getElem?_eq_getElem h]
  exact List.getElem_mem h

theorem fpMark_markOK : MarkOK fpMark := Or.inr ⟨rfl, rfl, rfl⟩

theorem stepPredThrs_marks_length (i : Nat) (p : PredInst)
    (g : List (Nat × GtInst)) (pairs : List (Nat × ℚ)) (lock : List (List ℤ)) :
    (stepPredThrs i p g lock pairs).1.length = pairs.length := by
  induction pairs generalizing lock with
  | nil => rfl
  | cons q rest ih =>
    obtain ⟨tidx, thr⟩ := q
    simp only [stepPredThrs, List.length_cons]
    rw [ih]

theorem stepPredThrs_marks_ok (i : Nat) (p : PredInst)
    (g : List (Nat × GtInst)) (pairs : List (Nat × ℚ)) (lock : List (List ℤ)) :
    ∀ m ∈ (stepPredThrs i p g lock pairs).1, MarkOK m := by
  induction pairs generalizing lock with
  | nil => intro m hm; cases hm
  | cons q rest ih =>
    obtain ⟨tidx, thr⟩ := q
    intro m hm
    simp only [stepPredThrs] at hm
    rcases List.mem_cons.mp hm with hm | hm
    · exact hm ▸ stepThr_markOK i p g thr (lock.getD tidx [])
    · exact ih _ m hm

theorem stepPred_marks_length (thrs : List ℚ) (i : Nat) (p : PredInst)
    (gt : List GtInst) (lock : List (List ℤ)) :
    (stepPred thrs i p gt lock).1.length = thrs.length := by
  unfold stepPred
  by_cases hg : (gtGroup gt p.videoId).isEmpty
  · simp [hg]
  · simp only [hg, if_false, Bool.false_eq_true]
    rw [stepPredThrs_marks_length, List.enum_length]

theorem stepPred_marks_ok (thrs : List ℚ) (i : Nat) (p : PredInst)
    (gt : List GtInst) (lock : List (List ℤ)) :
    ∀ m ∈ (stepPred thrs i p gt lock).1, MarkOK m := by
  unfold stepPred
  by_cases hg : (gtGroup gt p.videoId).isEmpty
  · simp only [hg, if_true]
    intro m hm
    obtain ⟨x, _, hx⟩ := List.mem_map.mp hm
    exact hx ▸ fpMark_markOK
  · simp only [hg, if_false, Bool.false_eq_true]
    exact stepPredThrs_marks_ok i p _ _ lock

theorem runMatchFrom_marks_length (thrs : List ℚ) (gt : List GtInst)
    (pairs : List (Nat × PredInst)) (lock : List (List ℤ)) :
    (runMatchFrom thrs gt lock pairs).1.length = pairs.length := by
  induction pairs generalizing lock with
  | nil => rfl
  | cons q rest ih =>
    obtain ⟨i, p⟩ := q
    simp only [runMatchFrom, List.length_cons]
    rw [ih]

theorem runMatchFrom_marks_shape (thrs : List ℚ) (gt : List GtInst)
    (pairs : List (Nat × PredInst)) (lock : List (List ℤ)) :
    ∀ ms ∈ (runMatchFrom thrs gt lock pairs).1,
      ms.length = thrs.length ∧ ∀ m ∈ ms, MarkOK m := by
  induction pairs generalizing lock with
  | nil => intro ms hms; cases hms
  | cons q rest ih =>
    obtain ⟨i, p⟩ := q
    intro ms hms
    simp only [runMatchFrom] at hms
    rcases List.mem_cons.mp hms with hms | hms
    · subst hms
      exact ⟨stepPred_marks_length thrs i p gt lock, stepPred_marks_ok thrs i p gt lock⟩
    · exact ih _ ms hms

/-! ### Cumulative sums -/

theorem cumsumFrom_length (a : ℚ) (l : List ℚ) :
    (cumsumFrom a l).length = l.length := by
  induction l generalizing a with
  | nil => rfl
  | cons x xs ih => simp only [cumsumFrom, List.length_cons]; rw [ih]

theorem cumsumFrom_getD_add (xs : List ℚ) :
    ∀ (ys : List ℚ) (a b : ℚ) (i : Nat), xs.length = ys.length →
    i < xs.length →
    (∀ k, k < xs.length → xs.getD k 0 + ys.getD k 0 = 1) →
    (cumsumFrom a xs).getD i 0 + (cumsumFrom b ys).getD i 0 = a + b + (i + 1 : ℚ) := by
  induction xs with
  | nil => intro ys a b i _ hi _; exact absurd hi (by simp)
  | cons x xs ih =>
    intro ys a b i hlen hi hsum
    cases ys with
    | nil => simp at hlen
    | cons y ys =>
      cases i with
      | zero =>
        have h0 := hsum 0 (by simp)
        simp only [List.getD_cons_zero] at h0
        simp only [cumsumFrom, List.getD_cons_zero]
        push_cast
        linarith
      | succ i =>
        simp only [cumsumFrom, List.getD_cons_succ]
        have hrec := ih ys (a + x) (b + y) i
          (by simpa using hlen) (by simpa using hi)
          (fun k hk => by
            have := hsum (k + 1) (by simpa using Nat.succ_lt_succ hk)
            simpa using this)
        rw [hrec]
        have h0 := hsum 0 (by simp)
        simp only [List.getD_cons_zero] at h0
        push_cast
        linarith

theorem cumsum_getD_add (xs ys : List ℚ) (i : Nat) (hlen : xs.length = ys.length)
    (hi : i < xs.length)
    (hsum : ∀ k, k < xs.length → xs.getD k 0 + ys.getD k 0 = 1) :
    (cumsum xs).getD i 0 + (cumsum ys).getD i 0 = (i + 1 : ℚ) := by
  have := cumsumFrom_getD_add xs ys 0 0 i hlen hi hsum
  simpa [cumsum] using this

theorem cumsumFrom_getLast_cons (ys : List ℚ) :
    ∀ (a x : ℚ), (cumsumFrom a (x :: ys)).getLast? = some (a + (x :: ys).sum) := by
  induction ys with
  | nil => intro a x; simp [cumsumFrom]
  | cons y ys ih =>
    intro a x
    have h1 : cumsumFrom a (x :: y :: ys) = (a + x) :: cumsumFrom (a + x) (y :: ys) := rfl
    have h2 : cumsumFrom (a + x) (y :: ys) = (a + x + y) :: cumsumFrom (a + x + y) ys := rfl
    rw [h1, h2, List.getLast?_cons_cons, ← h2, ih (a + x) y]
    simp only [List.sum_cons, Option.some.injEq]
    ring

theorem cumsum_getLast_sum (l : List ℚ) : (cumsum l).getLast?.getD 0 = l.sum := by
  cases l with
  | nil => simp [cumsum, cumsumFrom]
  | cons x xs =>
    rw [cumsum, cumsumFrom_getLast_cons xs 0 x]
    simp

theorem sum_zero_all_zero (l : List ℚ) (hpos : ∀ x ∈ l, 0 ≤ x)
    (hsum : l.sum = 0) : ∀ x ∈ l, x = 0 := by
  induction l with
  | nil => intro x hx; cases hx
  | cons a as ih =>
    have ha : 0 ≤ a := hpos a (List.mem_cons_self a as)
    have has : 0 ≤ as.sum :=
      List.sum_nonneg (fun x hx => hpos x (List.mem_cons_of_mem a hx))
    rw [List.sum_cons] at hsum
    intro x hx
    rcases List.mem_cons.mp hx with hx | hx
    · subst hx; linarith
    · exact ih (fun y hy => hpos y (List.mem_cons_of_mem a hy)) (by linarith) x hx

/-! ### Row extraction and latency characterisation -/

theorem row_tp_fp_one (marks : List (List Mark)) (t k : Nat)
    (hshape : ∀ ms ∈ marks, ms.length > t ∧ ∀ m ∈ ms, MarkOK m)
    (hk : k < marks.length) :
    (tpRow marks t).getD k 0 + (fpRow marks t).getD k 0 = 1 := by
  unfold tpRow fpRow
  rw [getD_map_lt _ marks k 0 [] hk, getD_map_lt _ marks k 0 [] hk]
  have hms : marks.getD k [] ∈ marks := getD_mem_of_lt marks k [] hk
  obtain ⟨hlen, hok⟩ := hshape _ hms
  have hm : (marks.getD k []).getD t default ∈ marks.getD k [] :=
    getD_mem_of_lt _ t default hlen
  rcases hok _ hm with ⟨h1, h2⟩ | ⟨h1, h2, _⟩ <;> rw [h1, h2] <;> norm_num

theorem tdRow_eq_latency_map (marks : List (List Mark)) (t : Nat)
    (hok : ∀ ms ∈ marks, ∀ m ∈ ms, MarkOK m) :
    tdRow marks t = marks.map (fun ms =>
      if (ms.getD t default).tp = 1 then (ms.getD t default).td else 0) := by
  apply List.map_congr_left
  intro ms hms
  by_cases ht : t < ms.length
  · have hm : ms.getD t default ∈ ms := getD_mem_of_lt ms t default ht
    rcases hok ms hms _ hm with ⟨h1, _⟩ | ⟨h1, _, h3⟩
    · rw [if_pos h1]
    · rw [if_neg (by rw [h1]; norm_num), h3]
  · rw [List.getD_eq_default ms _ (le_of_not_lt ht)]
    norm_num [default]

theorem tdRow_sum_eq (marks : List (List Mark)) (t : Nat)
    (hok : ∀ ms ∈ marks, ∀ m ∈ ms, MarkOK m) :
    (tdRow marks t).sum = tpLatencySum marks t := by
  rw [tdRow_eq_latency_map marks t hok]
  rfl

theorem tpRow_nonneg (marks : List (List Mark)) (t : Nat)
    (hok : ∀ ms ∈ marks, ∀ m ∈ ms, MarkOK m) :
    ∀ x ∈ tpRow marks t, 0 ≤ x := by
  intro x hx
  obtain ⟨ms, hms, hx⟩ := List.mem_map.mp hx
  subst hx
  by_cases ht : t < ms.length
  · have hm : ms.getD t default ∈ ms := getD_mem_of_lt ms t default ht
    rcases hok ms hms _ hm with ⟨h1, _⟩ | ⟨h1, _, _⟩ <;> rw [h1] <;> norm_num
  · rw [List.getD_eq_default ms _ (le_of_not_lt ht)]
    norm_num [default]

theorem tpLatencySum_zero_of_no_tp (marks : List (List Mark)) (t : Nat)
    (hok : ∀ ms ∈ marks, ∀ m ∈ ms, MarkOK m)
    (hz : (tpRow marks t).sum = 0) : tpLatencySum marks t = 0 := by
  have hall := sum_zero_all_zero _ (tpRow_nonneg marks t hok) hz
  apply List.sum_eq_zero
  intro x hx
  obtain ⟨ms, hms, hx⟩ := List.mem_map.mp hx
  subst hx
  have h0 : (ms.getD t default).tp = 0 :=
    hall _ (List.mem_map_of_mem (fun ms => (ms.getD t default).tp) hms)
  rw [if_neg (by rw [h0]; norm_num)]

theorem gtGroup_nil (v : Nat) : gtGroup ([] : List GtInst) v = [] := rfl

theorem runMatchFrom_marks_empty_gt (thrs : List ℚ)
    (pairs : List (Nat × PredInst)) (lock : List (List ℤ)) :
    ∀ ms ∈ (runMatchFrom thrs ([] : List GtInst) lock pairs).1,
      ms = thrs.map (fun _ => fpMark) := by
  induction pairs generalizing lock with
  | nil => intro ms hms; cases hms
  | cons q rest ih =>
    obtain ⟨i, p⟩ := q
    intro ms hms
    simp only [runMatchFrom] at hms
    rcases List.mem_cons.mp hms with hms | hms
    · subst hms
      unfold stepPred
      rw [gtGroup_nil]
      rfl
    · exact ih _ ms hms

theorem tpLatencySum_empty_gt (thrs : List ℚ) (pairs : List (Nat × PredInst))
    (lock : List (List ℤ)) (t : Nat) :
    tpLatencySum (runMatchFrom thrs ([] : List GtInst) lock pairs).1 t = 0 := by
  apply List.sum_eq_zero
  intro x hx
  obtain ⟨ms, hms, hx⟩ := List.mem_map.mp hx
  subst hx
  rw [runMatchFrom_marks_empty_gt thrs pairs lock ms hms]
  by_cases ht : t < thrs.length
  · rw [getD_map_lt (fun _ => fpMark) thrs t default 0 ht]
    norm_num [fpMark]
  · rw [List.getD_eq_default _ _ (by simpa using le_of_not_lt ht)]
    norm_num [default]

theorem sortPredictions_nil : sortPredictions [] = [] := rfl

theorem tpRow_sum_empty_gt (thrs : List ℚ) (pairs : List (Nat × PredInst))
    (lock : List (List ℤ)) (t : Nat) :
    (tpRow (runMatchFrom thrs ([] : List GtInst) lock pairs).1 t).sum = 0 := by
  apply List.sum_eq_zero
  intro x hx
  obtain ⟨ms, hms, hx⟩ := List.mem_map.mp hx
  subst hx
  rw [runMatchFrom_marks_empty_gt thrs pairs lock ms hms]
  by_cases ht : t < thrs.length
  · rw [getD_map_lt (fun _ => fpMark) thrs t default 0 ht]
    norm_num [fpMark]
  · rw [List.getD_eq_default _ _ (by simpa using le_of_not_lt ht)]
    norm_num [default]

theorem computeAPD_tdiff_eq (interp : List ℚ → List ℚ → ℚ) (thrs : List ℚ)
    (gt : List GtInst) (preds : List PredInst) (t : Nat) (ht : t < thrs.length) :
    (compute_average_precision_detection interp thrs gt preds).2.1.getD t 0 =
      tpLatencySum (runMatch thrs gt (sortPredictions preds)).1 t := by
  unfold compute_average_precision_detection
  by_cases he : (preds.isEmpty = true) ∨ (gt.isEmpty = true)
  · rw [if_pos he]
    have hL : (List.replicate thrs.length (0:ℚ), List.replicate thrs.length (0:ℚ),
        List.replicate thrs.length (0:ℚ)).2.1.getD t 0 = 0 :=
      getD_replicate_self 0 0 thrs.length t ht
    rw [hL]
    rcases he with he | he
    · have hp : preds = [] := by simpa using he
      subst hp
      simp [sortPredictions_nil, runMatch, runMatchFrom, tpLatencySum]
    · have hg : gt = [] := by simpa using he
      subst hg
      exact (tpLatencySum_empty_gt thrs _ _ t).symm
  · rw [if_neg he]
    simp only []
    set marks := (runMatch thrs gt (sortPredictions preds)).1 with hmarks
    rw [getD_map_range _ thrs.length t 0 ht]
    rw [cumsum_getLast_sum (tpRow marks t)]
    have hok : ∀ ms ∈ marks, ∀ m ∈ ms, MarkOK m := by
      intro ms hms
      exact (runMatchFrom_marks_shape thrs gt _ _ ms hms).2
    by_cases hc : (cumsum (tdRow marks t)).length = 0 ∨ (tpRow marks t).sum = 0
    · rw [if_pos hc]
      rcases hc with hc | hc
      · rw [cumsum, cumsumFrom_length] at hc
        have : tdRow marks t = [] := List.length_eq_zero.mp hc
        have hm : marks = [] := by
          have h2 : List.map (fun ms => (ms.getD t default).td) marks = [] := this
          exact List.map_eq_nil_iff.mp h2
        simp [hm, tpLatencySum]
      · exact (tpLatencySum_zero_of_no_tp marks t hok hc).symm
    · rw [if_neg hc]
      rw [cumsum_getLast_sum (tdRow marks t)]
      exact tdRow_sum_eq marks t hok

theorem computeAPD_cnt_eq (interp : List ℚ → List ℚ → ℚ) (thrs : List ℚ)
    (gt : List GtInst) (preds : List PredInst) (t : Nat) (ht : t < thrs.length) :
    (compute_average_precision_detection interp thrs gt preds).2.2.getD t 0 =
      (tpRow (runMatch thrs gt (sortPredictions preds)).1 t).sum := by
  unfold compute_average_precision_detection
  by_cases he : (preds.isEmpty = true) ∨ (gt.isEmpty = true)
  · rw [if_pos he]
    have hL : (List.replicate thrs.length (0:ℚ), List.replicate thrs.length (0:ℚ),
        List.replicate thrs.length (0:ℚ)).2.2.getD t 0 = 0 :=
      getD_replicate_self 0 0 thrs.length t ht
    rw [hL]
    rcases he with he | he
    · have hp : preds = [] := by simpa using he
      subst hp
      simp [sortPredictions_nil, runMatch, runMatchFrom, tpRow]
    · have hg : gt = [] := by simpa using he
      subst hg
      exact (tpRow_sum_empty_gt thrs _ _ t).symm
  · rw [if_neg he]
    simp only []
    rw [getD_map_range _ thrs.length t 0 ht]
    rw [cumsum_getLast_sum]

/-! ### Decoder lemmas -/

theorem decodeAnchor_eq (expF : ℚ → ℚ) (idx numClass : Nat)
    (clsScores : Nat → ℚ) (reg0 reg1 anchor threshold frameToTime : ℚ) :
    decodeAnchor expF idx numClass clsScores reg0 reg1 anchor threshold frameToTime =
      ((List.range (numClass - 1)).filter (fun l => decide (threshold < clsScores l))).map
        (fun label =>
          ⟨((idx : ℚ) + anchor * reg0 - anchor * expF reg1) * frameToTime / 100,
           ((idx : ℚ) + anchor * reg0) * frameToTime / 100,
           clsScores label, label, (idx : ℚ) * frameToTime / 100⟩) := by
  by_cases hc : ((List.range (numClass - 1)).filter
      (fun l => decide (threshold < clsScores l))).isEmpty
  · simp only [decodeAnchor, if_pos hc]
    rw [List.isEmpty_iff.mp hc]
    rfl
  · simp only [decodeAnchor, if_neg hc]

theorem foldl_append_flatten {α β : Type} (f : β → List α) (l : List β) :
    ∀ init : List α,
      l.foldl (fun acc a => acc ++ f a) init = init ++ (l.map f).flatten := by
  induction l with
  | nil => intro init; simp
  | cons x xs ih =>
    intro init
    simp only [List.foldl_cons, List.map_cons, List.flatten_cons]
    rw [ih (init ++ f x), List.append_assoc]

theorem decodeFrame_eq (expF : ℚ → ℚ) (idx numClass : Nat)
    (clsAnc : Nat → Nat → ℚ) (reg : Nat → ℚ × ℚ) (anchors : List ℚ)
    (threshold frameToTime : ℚ) :
    decodeFrame expF idx numClass clsAnc reg anchors threshold frameToTime =
      ((List.range anchors.length).map (fun a =>
        decodeAnchor expF idx numClass (clsAnc a) (reg a).1 (reg a).2
          (anchors.getD a 0) threshold frameToTime)).flatten := by
  unfold decodeFrame
  rw [foldl_append_flatten]
  rfl

/-! ### Sorting lemmas for the prediction list -/

theorem map_getD_range {α : Type} (l : List α) (d : α) :
    (List.range l.length).map (fun i => l.getD i d) = l := by
  induction l with
  | nil => rfl
  | cons x xs ih =>
    rw [List.length_cons, List.range_succ_eq_map, List.map_cons, List.map_map,
      List.getD_cons_zero]
    refine congrArg (List.cons x) ?_
    exact (List.map_congr_left (fun a _ => List.getD_cons_succ)).trans ih

theorem sortPredictions_perm (preds : List PredInst) :
    (sortPredictions preds).Perm preds := by
  unfold sortPredictions sortIdx
  have h1 := (argsortDesc_perm (fun i => (preds.getD i default).score)
    preds.length).map (fun i => preds.getD i default)
  rw [map_getD_range preds default] at h1
  exact h1

theorem sortPredictions_sorted (preds : List PredInst) :
    (sortPredictions preds).Pairwise (fun a b => b.score ≤ a.score) := by
  unfold sortPredictions sortIdx
  rw [List.pairwise_map]
  exact sorted_argsortDesc (fun i => (preds.getD i default).score) preds.length

/-! ### Online refiner lemmas -/

theorem check_overlap_none_iff (acc : List Proposal) (p : Proposal) (thr : ℚ) :
    check_overlap_proposal acc p thr = none ↔
      ∀ q ∈ acc, segment_iou (q.segStart, q.segEnd) (p.segStart, p.segEnd) ≤ thr := by
  unfold check_overlap_proposal
  rw [List.find?_eq_none]
  constructor
  · intro h q hq
    have := h q hq
    simpa using this
  · intro h q hq
    simpa using h q hq

theorem considerProposal_grow (thr : ℚ) (cls : Nat) (acc : List Proposal)
    (p : Proposal) : ∃ tl, considerProposal thr cls acc p = acc ++ tl := by
  unfold considerProposal
  by_cases h1 : p.label = cls
  · rw [if_pos h1]
    by_cases h2 : check_overlap_proposal acc p thr = none
    · exact ⟨[p], by rw [if_pos h2]⟩
    · exact ⟨[], by rw [if_neg h2, List.append_nil]⟩
  · exact ⟨[], by rw [if_neg h1, List.append_nil]⟩

theorem foldl_grow {α β : Type} (φ : List α → β → List α)
    (h : ∀ acc b, ∃ tl, φ acc b = acc ++ tl) (l : List β) :
    ∀ acc, ∃ tl, l.foldl φ acc = acc ++ tl := by
  induction l with
  | nil => intro acc; exact ⟨[], by simp⟩
  | cons b bs ih =>
    intro acc
    obtain ⟨t1, h1⟩ := h acc b
    obtain ⟨t2, h2⟩ := ih (φ acc b)
    exact ⟨t1 ++ t2, by rw [List.foldl_cons, h2, h1, List.append_assoc]⟩

theorem acceptClass_grow (thr : ℚ) (cls : Nat) (pool : List Proposal)
    (acc : List Proposal) : ∃ tl, acceptClass thr cls pool acc = acc ++ tl :=
  foldl_grow (considerProposal thr cls) (considerProposal_grow thr cls) pool acc

theorem acceptFrame_grow (numClass : Nat) (supConf : Nat → ℚ)
    (supThr overlapThr : ℚ) (pool : List Proposal) (acc : List Proposal) :
    ∃ tl, acceptFrame numClass supConf supThr overlapThr pool acc = acc ++ tl := by
  apply foldl_grow
  intro a cls
  by_cases hg : supThr < supConf cls
  · rw [if_pos hg]
    exact acceptClass_grow overlapThr cls pool a
  · exact ⟨[], by rw [if_neg hg, List.append_nil]⟩

theorem considerProposal_mem (thr : ℚ) (cls : Nat) (acc : List Proposal)
    (p q : Proposal) (h : q ∈ considerProposal thr cls acc p) :
    q ∈ acc ∨ (q = p ∧ p.label = cls) := by
  unfold considerProposal at h
  by_cases h1 : p.label = cls
  · rw [if_pos h1] at h
    by_cases h2 : check_overlap_proposal acc p thr = none
    · rw [if_pos h2] at h
      rcases List.mem_append.mp h with h | h
      · exact Or.inl h
      · exact Or.inr ⟨List.mem_singleton.mp h, h1⟩
    · rw [if_neg h2] at h
      exact Or.inl h
  · rw [if_neg h1] at h
    exact Or.inl h

theorem acceptClass_mem (thr : ℚ) (cls : Nat) (pool : List Proposal) :
    ∀ (acc : List Proposal) (q : Proposal), q ∈ acceptClass thr cls pool acc →
      q ∈ acc ∨ (q ∈ pool ∧ q.label = cls) := by
  induction pool with
  | nil => intro acc q h; exact Or.inl h
  | cons p ps ih =>
    intro acc q h
    simp only [acceptClass, List.foldl_cons] at h
    rcases ih (considerProposal thr cls acc p) q h with h2 | h2
    · rcases considerProposal_mem thr cls acc p q h2 with h3 | ⟨h3, h4⟩
      · exact Or.inl h3
      · rw [h3]
        exact Or.inr ⟨List.mem_cons_self p ps, h4⟩
    · exact Or.inr ⟨List.mem_cons_of_mem p h2.1, h2.2⟩

theorem acceptFrame_mem (numClass : Nat) (supConf : Nat → ℚ)
    (supThr overlapThr : ℚ) (pool : List Proposal) (acc : List Proposal)
    (q : Proposal) (h : q ∈ acceptFrame numClass supConf supThr overlapThr pool acc) :
    q ∈ acc ∨ (q ∈ pool ∧ supThr < supConf q.label) := by
  unfold acceptFrame at h
  revert h
  generalize List.range (numClass - 1) = cl
  induction cl generalizing acc with
  | nil => intro h; exact Or.inl h
  | cons c cs ih =>
    intro h
    simp only [List.foldl_cons] at h
    by_cases hg : supThr < supConf c
    · rw [if_pos hg] at h
      rcases ih (acceptClass overlapThr c pool acc) h with h2 | h2
      · rcases acceptClass_mem overlapThr c pool acc q h2 with h3 | ⟨h3, h4⟩
        · exact Or.inl h3
        · exact Or.inr ⟨h3, h4 ▸ hg⟩
      · exact Or.inr h2
    · rw [if_neg hg] at h
      exact ih acc h

theorem considerProposal_append_iff (thr : ℚ) (cls : Nat) (acc : List Proposal)
    (p : Proposal) (h : p.label = cls) :
    considerProposal thr cls acc p = acc ++ [p] ↔
      ∀ q ∈ acc, segment_iou (q.segStart, q.segEnd) (p.segStart, p.segEnd) ≤ thr := by
  unfold considerProposal
  rw [if_pos h]
  constructor
  · intro he
    by_cases h2 : check_overlap_proposal acc p thr = none
    · exact (check_overlap_none_iff acc p thr).mp h2
    · rw [if_neg h2] at he
      exfalso
      have := congrArg List.length he
      simp at this
  · intro hq
    rw [if_pos ((check_overlap_none_iff acc p thr).mpr hq)]

theorem considerProposal_cases (thr : ℚ) (cls : Nat) (acc : List Proposal)
    (p : Proposal) :
    considerProposal thr cls acc p = acc ∨
      considerProposal thr cls acc p = acc ++ [p] := by
  unfold considerProposal
  by_cases h1 : p.label = cls
  · rw [if_pos h1]
    by_cases h2 : check_overlap_proposal acc p thr = none
    · rw [if_pos h2]; exact Or.inr rfl
    · rw [if_neg h2]; exact Or.inl rfl
  · rw [if_neg h1]; exact Or.inl rfl

theorem processVideosLoop_eq (numClass : Nat) (supThr overlapThr : ℚ)
    (videos : List (List (List Proposal × (Nat → ℚ)))) :
    processVideosLoop numClass supThr overlapThr videos =
      videos.map (processVideo numClass supThr overlapThr) := by
  suffices h : ∀ (vs : List (List (List Proposal × (Nat → ℚ))))
      (res : List (List Proposal)),
      (vs.foldl (fun (st : List (List Proposal) × List Proposal) v =>
        (st.1 ++ [v.foldl (fun a f => acceptFrame numClass f.2 supThr overlapThr f.1 a) st.2],
         ([] : List Proposal))) (res, ([] : List Proposal))).1 =
        res ++ vs.map (processVideo numClass supThr overlapThr) by
    have h2 := h videos []
    simpa [processVideosLoop] using h2
  intro vs
  induction vs with
  | nil => intro res; simp
  | cons v rest ih =>
    intro res
    simp only [List.foldl_cons, List.map_cons]
    rw [ih (res ++ [v.foldl (fun a f => acceptFrame numClass f.2 supThr overlapThr f.1 a) []])]
    rw [List.append_assoc]
    rfl

/-! ### Activity index lemmas -/

theorem buildAIAux_inv (ls : List String) :
    ∀ st : List (String × Nat) × Nat,
    st.2 = st.1.length →
    st.1.map Prod.snd = List.range st.1.length →
    (st.1.map Prod.fst).Nodup →
    (buildAIAux st ls).2 = (buildAIAux st ls).1.length ∧
    (buildAIAux st ls).1.map Prod.snd = List.range (buildAIAux st ls).1.length ∧
    ((buildAIAux st ls).1.map Prod.fst).Nodup := by
  induction ls with
  | nil => intro st h1 h2 h3; exact ⟨h1, h2, h3⟩
  | cons l rest ih =>
    intro st h1 h2 h3
    simp only [buildAIAux]
    by_cases hm : l ∈ st.1.map Prod.fst
    · rw [if_pos hm]
      exact ih st h1 h2 h3
    · rw [if_neg hm]
      apply ih
      · simp [h1]
      · simp only [List.map_append, List.map_cons, List.map_nil,
          List.length_append, List.length_cons, List.length_nil]
        rw [h2, h1]
        exact (List.range_succ st.1.length).symm
      · simp only [List.map_append, List.map_cons, List.map_nil]
        rw [List.nodup_append]
        refine ⟨h3, List.nodup_singleton l, ?_⟩
        intro a ha hb
        rw [List.mem_singleton.mp hb] at ha
        exact hm ha

theorem buildAIAux_keys (ls : List String) :
    ∀ st : List (String × Nat) × Nat,
      (buildAIAux st ls).1.map Prod.fst = dedupFirstAux (st.1.map Prod.fst) ls := by
  induction ls with
  | nil => intro st; rfl
  | cons l rest ih =>
    intro st
    simp only [buildAIAux, dedupFirstAux]
    by_cases hm : l ∈ st.1.map Prod.fst
    · rw [if_pos hm, if_pos hm]
      exact ih st
    · rw [if_neg hm, if_neg hm]
      rw [ih (st.1 ++ [(l, st.2)], st.2 + 1)]
      congr 1
      simp

theorem buildAIAux_mem (ls : List String) (l : String) :
    ∀ st : List (String × Nat) × Nat,
      l ∈ (buildAIAux st ls).1.map Prod.fst ↔
        l ∈ st.1.map Prod.fst ∨ l ∈ ls := by
  induction ls with
  | nil => intro st; simp [buildAIAux]
  | cons x rest ih =>
    intro st
    simp only [buildAIAux]
    by_cases hm : x ∈ st.1.map Prod.fst
    · rw [if_pos hm, ih st, List.mem_cons]
      constructor
      · rintro (h | h)
        · exact Or.inl h
        · exact Or.inr (Or.inr h)
      · rintro (h | h | h)
        · exact Or.inl h
        · exact Or.inl (h ▸ hm)
        · exact Or.inr h
    · rw [if_neg hm, ih _]
      simp only [List.map_append, List.map_cons, List.map_nil, List.mem_append,
        List.mem_cons, List.mem_singleton, List.not_mem_nil, or_false]
      tauto

/-! ### Remaining small helpers -/

theorem sortPredictions_length (preds : List PredInst) :
    (sortPredictions preds).length = preds.length := by
  unfold sortPredictions sortIdx
  rw [List.length_map, length_argsortDesc]

theorem initLock_length (thrs : List ℚ) (gt : List GtInst) :
    (initLock thrs gt).length = thrs.length := by
  simp [initLock]

theorem initLock_getD (thrs : List ℚ) (gt : List GtInst) (t : Nat)
    (ht : t < thrs.length) :
    (initLock thrs gt).getD t [] = List.replicate gt.length (-1) :=
  getD_replicate_self _ _ thrs.length t ht

theorem gtGroup_eq_nil (gt : List GtInst) (v : Nat)
    (h : ∀ q ∈ gt, q.videoId ≠ v) : gtGroup gt v = [] := by
  unfold gtGroup
  rw [List.filter_eq_nil_iff]
  intro x hx
  obtain ⟨a, b⟩ := x
  obtain ⟨hlt, hb⟩ := List.mem_enum hx
  simp only [beq_iff_eq]
  exact h b (hb ▸ List.getElem_mem hlt)

/-! ### Claims -/

/-- C1: For every evaluation pass of compute_average_precision_detection and
every tIoU threshold, the lock table satisfies: (i) once a ground-truth
instance is locked its (non-negative) lock value never changes for the rest
of the pass — it is never unlocked; (ii) consequently it is claimed by at
most one prediction: after the step that locks it, no later step can lock it
again; (iii) the lock rows of different thresholds are independent: row `t`
of the final lock matrix equals the lock state of a single-threshold pass
run at threshold `t` alone. -/
theorem lock_table_invariant :
    (∀ (thrs : List ℚ) (gt : List GtInst) (sorted : List PredInst) (k k' t g : Nat),
      k ≤ k' → 0 ≤ lockRead (lockAt thrs gt sorted k) t g →
      lockRead (lockAt thrs gt sorted k') t g = lockRead (lockAt thrs gt sorted k) t g) ∧
    (∀ (thrs : List ℚ) (gt : List GtInst) (sorted : List PredInst) (k1 k2 t g : Nat),
      k1 < k2 →
      0 ≤ lockRead (lockAt thrs gt sorted (k1 + 1)) t g →
      ¬(lockRead (lockAt thrs gt sorted k2) t g < 0 ∧
        0 ≤ lockRead (lockAt thrs gt sorted (k2 + 1)) t g)) ∧
    (∀ (thrs : List ℚ) (gt : List GtInst) (sorted : List PredInst) (t : Nat),
      t < thrs.length →
      (runMatch thrs gt sorted).2.getD t [] = (runMatchRow (thrs.getD t 0) gt sorted).2) := by
  refine ⟨?_, ?_, ?_⟩
  · intro thrs gt sorted k k' t g hk h
    exact lockAt_mono thrs gt sorted k k' t g hk h
  · intro thrs gt sorted k1 k2 t g hk h
    rintro ⟨hneg, _⟩
    have heq := lockAt_mono thrs gt sorted (k1 + 1) k2 t g (by omega) h
    rw [heq] at hneg
    exact absurd h (not_le.mpr hneg)
  · intro thrs gt sorted t ht
    unfold runMatch runMatchRow
    have hp := runMatchFrom_proj thrs gt sorted.enum (initLock thrs gt) t ht
      (initLock_length thrs gt)
    rw [initLock_getD thrs gt t ht] at hp
    exact hp.1

/-- C2: For a prediction whose video has ground-truth candidates, one
(prediction, threshold) step of the matcher behaves as specified: it yields
the false-positive mark exactly when every candidate either falls below the
threshold in tIoU or is already locked (this covers both the early
`break` on the sorted walk and exhausting the walk); otherwise it yields a
true-positive mark for an unlocked candidate of maximal tIoU among the
unlocked candidates (the first one met on the decreasing-tIoU walk), with
latency `sanitised gentime - matched end time` recorded and only that
candidate's lock written; a false positive leaves the lock row unchanged. -/
theorem matcher_walk_spec :
    ∀ (i : Nat) (p : PredInst) (g : List (Nat × GtInst)) (thr : ℚ) (row : List ℤ),
      ((stepThr i p g thr row).1 = fpMark ↔
        ∀ j < g.length, tiouOf p g j < thr ∨ 0 ≤ row.getD (origOf g j) (-1)) ∧
      ((stepThr i p g thr row).1 ≠ fpMark →
        ∃ j < g.length, thr ≤ tiouOf p g j ∧ row.getD (origOf g j) (-1) < 0 ∧
          (∀ j' < g.length, row.getD (origOf g j') (-1) < 0 →
            tiouOf p g j' ≤ tiouOf p g j) ∧
          (stepThr i p g thr row).1 =
            ⟨1, 0, sanitizeGentime p.gentime - endOf g j⟩ ∧
          (stepThr i p g thr row).2 = row.set (origOf g j) (i : ℤ)) ∧
      ((stepThr i p g thr row).1 = fpMark → (stepThr i p g thr row).2 = row) := by
  intro i p g thr row
  refine ⟨stepThr_fpMark_iff i p g thr row, stepThr_tp_spec i p g thr row, ?_⟩
  intro h
  cases hw : walkGt (tiouOf p g) thr row (origOf g)
      (argsortDesc (tiouOf p g) g.length) with
  | fpBreak => exact (stepThr_snd_of_not_tp i p g thr row (Or.inl hw)).2
  | exhaust => exact (stepThr_snd_of_not_tp i p g thr row (Or.inr hw)).2
  | tpAt j =>
    exfalso
    have := (stepThr_of_tpAt i p g thr row j hw).1
    rw [this] at h
    simp [fpMark, Mark.mk.injEq] at h

/-- C4: For every threshold index `t` and every prediction index `i` in
score-sorted order, the cumulative true-positive count plus the cumulative
false-positive count at `i` equals `i + 1`: every prediction is assigned
exactly one of true positive / false positive at each threshold. -/
theorem tp_fp_partition (thrs : List ℚ) (gt : List GtInst) (preds : List PredInst)
    (t i : Nat) (ht : t < thrs.length) (hi : i < preds.length) :
    (cumsum (tpRow (runMatch thrs gt (sortPredictions preds)).1 t)).getD i 0 +
      (cumsum (fpRow (runMatch thrs gt (sortPredictions preds)).1 t)).getD i 0 =
      (i : ℚ) + 1 := by
  have hlen : (runMatch thrs gt (sortPredictions preds)).1.length = preds.length := by
    unfold runMatch
    rw [runMatchFrom_marks_length, List.enum_length, sortPredictions_length]
  apply cumsum_getD_add
  · unfold tpRow fpRow
    rw [List.length_map, List.length_map]
  · unfold tpRow
    rw [List.length_map, hlen]
    exact hi
  · intro k hk
    apply row_tp_fp_one
    · intro ms hms
      have hs := runMatchFrom_marks_shape thrs gt _ _ ms hms
      exact ⟨hs.1 ▸ ht, hs.2⟩
    · unfold tpRow at hk
      rw [List.length_map] at hk
      exact hk

/-- C5: For a class whose ground-truth set or prediction set is empty,
compute_average_precision_detection returns all-zero AP, latency and
tp-count vectors (one entry per threshold) — the function is total, no
exception path exists. -/
theorem empty_sets_zero_vectors (interp : List ℚ → List ℚ → ℚ) (thrs : List ℚ)
    (gt : List GtInst) (preds : List PredInst) (h : preds = [] ∨ gt = []) :
    compute_average_precision_detection interp thrs gt preds =
      (List.replicate thrs.length 0, List.replicate thrs.length 0,
       List.replicate thrs.length 0) := by
  unfold compute_average_precision_detection
  rcases h with h | h <;> subst h <;> simp

/-- C6: A prediction whose video has no ground-truth instances at all is
marked false positive at every threshold (the `except` branch around
`get_group`), the lock matrix is untouched, and no error is raised (the
step is a total function). -/
theorem missing_video_false_positive (thrs : List ℚ) (i : Nat) (p : PredInst)
    (gt : List GtInst) (lock : List (List ℤ))
    (h : ∀ q ∈ gt, q.videoId ≠ p.videoId) :
    stepPred thrs i p gt lock = (thrs.map (fun _ => fpMark), lock) := by
  unfold stepPred
  rw [gtGroup_eq_nil gt p.videoId h]
  rfl

/-- C3 (amended): The latency value returned per threshold by
compute_average_precision_detection is the SUM of the recorded latencies
over the class's true positives at that threshold (not the mean), and it is
0 when the class has no true positives there; the division by a
true-positive count happens only across classes, in
wrapper_compute_average_precision (`wrapperFinalTdiff`). -/
theorem latency_sum_spec (interp : List ℚ → List ℚ → ℚ) (thrs : List ℚ)
    (gt : List GtInst) (preds : List PredInst) (t : Nat) (ht : t < thrs.length) :
    (compute_average_precision_detection interp thrs gt preds).2.1.getD t 0 =
      tpLatencySum (runMatch thrs gt (sortPredictions preds)).1 t ∧
    ((compute_average_precision_detection interp thrs gt preds).2.2.getD t 0 = 0 →
      (compute_average_precision_detection interp thrs gt preds).2.1.getD t 0 = 0) := by
  refine ⟨computeAPD_tdiff_eq interp thrs gt preds t ht, ?_⟩
  intro hz
  rw [computeAPD_tdiff_eq interp thrs gt preds t ht]
  rw [computeAPD_cnt_eq interp thrs gt preds t ht] at hz
  apply tpLatencySum_zero_of_no_tp _ t _ hz
  intro ms hms
  exact (runMatchFrom_marks_shape thrs gt _ _ ms hms).2

/-- C3 (counterexample): on one class with two matched predictions of
latencies 1 and 3, the latency reported by
compute_average_precision_detection is their sum 4, while the claimed mean
over the 2 true positives would be 2. -/
theorem latency_mean_counterexample :
    (compute_average_precision_detection (fun _ _ => 0) [(1:ℚ)/2]
        [⟨0, 0, 1⟩, ⟨0, 10, 11⟩]
        [⟨0, 0, 1, 2, some 2⟩, ⟨0, 10, 11, 1, some 14⟩]).2.1 = [4] ∧
    (compute_average_precision_detection (fun _ _ => 0) [(1:ℚ)/2]
        [⟨0, 0, 1⟩, ⟨0, 10, 11⟩]
        [⟨0, 0, 1, 2, some 2⟩, ⟨0, 10, 11, 1, some 14⟩]).2.2 = [2] ∧
    (4 : ℚ) ≠ 4 / 2 := by
  refine ⟨?_, ?_, by norm_num⟩ <;>
    norm_num [compute_average_precision_detection, sortPredictions, sortIdx,
      argsortDesc, argsortAsc, insertByAsc, runMatch, runMatchFrom, initLock,
      stepPred, stepPredThrs, stepThr, walkGt, gtGroup, tiouOf, segment_iou,
      origOf, endOf, sanitizeGentime, cumsum, cumsumFrom, tpRow, fpRow, tdRow,
      fpMark, List.enum, List.enumFrom, List.filter, List.range_succ,
      List.range_zero]

/-- C7: the per-anchor decoder emits exactly one candidate per
non-background class whose score strictly exceeds the threshold (in class
order; zero candidates when none exceed), with
`end = idx + anchor*reg0`, `length = anchor*exp(reg1)`,
`start = end - length`, segment and generation time scaled by
`frame_to_time/100`, and score equal to that class's classifier score;
the frame pool is the concatenation of the per-anchor candidate lists. -/
theorem decoder_spec (expF : ℚ → ℚ) (idx numClass : Nat) (clsScores : Nat → ℚ)
    (reg0 reg1 anchor threshold frameToTime : ℚ) (clsAnc : Nat → Nat → ℚ)
    (reg : Nat → ℚ × ℚ) (anchors : List ℚ) :
    decodeAnchor expF idx numClass clsScores reg0 reg1 anchor threshold frameToTime =
      ((List.range (numClass - 1)).filter (fun l => decide (threshold < clsScores l))).map
        (fun label =>
          ⟨((idx : ℚ) + anchor * reg0 - anchor * expF reg1) * frameToTime / 100,
           ((idx : ℚ) + anchor * reg0) * frameToTime / 100,
           clsScores label, label, (idx : ℚ) * frameToTime / 100⟩) ∧
    (∀ c : Cand,
      c ∈ decodeAnchor expF idx numClass clsScores reg0 reg1 anchor threshold frameToTime ↔
        ∃ l, l < numClass - 1 ∧ threshold < clsScores l ∧
          c = ⟨((idx : ℚ) + anchor * reg0 - anchor * expF reg1) * frameToTime / 100,
               ((idx : ℚ) + anchor * reg0) * frameToTime / 100,
               clsScores l, l, (idx : ℚ) * frameToTime / 100⟩) ∧
    decodeFrame expF idx numClass clsAnc reg anchors threshold frameToTime =
      ((List.range anchors.length).map (fun a =>
        decodeAnchor expF idx numClass (clsAnc a) (reg a).1 (reg a).2
          (anchors.getD a 0) threshold frameToTime)).flatten := by
  refine ⟨decodeAnchor_eq expF idx numClass clsScores reg0 reg1 anchor threshold frameToTime,
    ?_, decodeFrame_eq expF idx numClass clsAnc reg anchors threshold frameToTime⟩
  intro c
  rw [decodeAnchor_eq expF idx numClass clsScores reg0 reg1 anchor threshold frameToTime]
  simp only [List.mem_map, List.mem_filter, List.mem_range, decide_eq_true_eq]
  constructor
  · rintro ⟨l, ⟨hl, hs⟩, hc⟩
    exact ⟨l, hl, hs, hc.symm⟩
  · rintro ⟨l, hl, hs, hc⟩
    exact ⟨l, ⟨hl, hs⟩, hc.symm⟩

/-- C8 (amended): the matcher sorts predictions by score in descending
order: the sorted list is a permutation of the input and pairwise
non-increasing in score.  The sort is NOT stable — `np.argsort`'s default
kind guarantees no order among equal keys and the trailing `[::-1]`
reverses whatever order it produced, so nothing beyond permutation and
sortedness is guaranteed for ties; the accompanying counterexample
exhibits a concrete equal-score input whose order is not preserved. -/
theorem sort_desc_spec :
    (∀ preds : List PredInst, (sortPredictions preds).Perm preds) ∧
    (∀ preds : List PredInst,
      (sortPredictions preds).Pairwise (fun a b => b.score ≤ a.score)) :=
  ⟨sortPredictions_perm, sortPredictions_sorted⟩

/-- C8 (counterexample): two distinct predictions with equal scores come
out of the sort in reversed input order, contradicting the stability in
the claim. -/
theorem sort_stability_counterexample :
    sortPredictions [⟨0, 0, 0, (1:ℚ)/2, none⟩, ⟨1, 0, 0, (1:ℚ)/2, none⟩] =
      [⟨1, 0, 0, (1:ℚ)/2, none⟩, ⟨0, 0, 0, (1:ℚ)/2, none⟩] ∧
    (⟨0, 0, 0, (1:ℚ)/2, none⟩ : PredInst) ≠ ⟨1, 0, 0, (1:ℚ)/2, none⟩ := by
  constructor
  · norm_num [sortPredictions, sortIdx, argsortDesc, argsortAsc, insertByAsc]
  · simp [PredInst.mk.injEq]

/-- C9: the online refiner's accept step: the accepted set only grows
within a video (the step appends a, possibly empty, tail); a pool proposal
of the gated class is appended exactly when no proposal already in the
accepted set at its consideration overlaps it beyond the threshold (and
otherwise the set is left as is); any newly accepted proposal comes from
the frame pool of a class whose gate score strictly exceeds sup_threshold;
and the per-video results of the video loop are computed independently,
each from an accepted set reset to empty. -/
theorem online_accept_spec :
    (∀ (numClass : Nat) (supConf : Nat → ℚ) (supThr overlapThr : ℚ)
        (pool acc : List Proposal),
      ∃ tl, acceptFrame numClass supConf supThr overlapThr pool acc = acc ++ tl) ∧
    (∀ (overlapThr : ℚ) (cls : Nat) (acc : List Proposal) (p : Proposal),
      p.label = cls →
      (considerProposal overlapThr cls acc p = acc ++ [p] ↔
        ∀ q ∈ acc,
          segment_iou (q.segStart, q.segEnd) (p.segStart, p.segEnd) ≤ overlapThr) ∧
      (considerProposal overlapThr cls acc p = acc ∨
        considerProposal overlapThr cls acc p = acc ++ [p])) ∧
    (∀ (numClass : Nat) (supConf : Nat → ℚ) (supThr overlapThr : ℚ)
        (pool acc : List Proposal) (q : Proposal),
      q ∈ acceptFrame numClass supConf supThr overlapThr pool acc →
      q ∈ acc ∨ (q ∈ pool ∧ supThr < supConf q.label)) ∧
    (∀ (numClass : Nat) (supThr overlapThr : ℚ)
        (videos : List (List (List Proposal × (Nat → ℚ)))),
      processVideosLoop numClass supThr overlapThr videos =
        videos.map (processVideo numClass supThr overlapThr)) := by
  refine ⟨acceptFrame_grow, ?_, acceptFrame_mem, processVideosLoop_eq⟩
  intro overlapThr cls acc p h
  exact ⟨considerProposal_append_iff overlapThr cls acc p h,
    considerProposal_cases overlapThr cls acc p⟩

/-- C10: the activity index built by _import_ground_truth is a bijection
from the loaded label strings onto `0 .. N-1` (`N` = returned `cidx` =
number of distinct labels): the key list is duplicate-free, equals the
first-occurrence deduplication of the loaded label sequence (first-seen
order), its value list is literally `range N`, keys are exactly the loaded
labels, and consequently the wrapper loop writes every AP/latency/tp-count
column exactly once. -/
theorem activity_index_bijection (labels : List String) :
    (buildActivityIndex labels).2 = (buildActivityIndex labels).1.length ∧
    (buildActivityIndex labels).1.map Prod.snd =
      List.range (buildActivityIndex labels).1.length ∧
    ((buildActivityIndex labels).1.map Prod.fst).Nodup ∧
    (buildActivityIndex labels).1.map Prod.fst = dedupFirst labels ∧
    (∀ l, l ∈ (buildActivityIndex labels).1.map Prod.fst ↔ l ∈ labels) ∧
    (∀ c, c < (buildActivityIndex labels).2 →
      (wrapperColumns (buildActivityIndex labels).1).count c = 1) := by
  have hinv := buildAIAux_inv labels ([], 0) rfl rfl List.nodup_nil
  refine ⟨hinv.1, hinv.2.1, hinv.2.2, ?_, ?_, ?_⟩
  · exact buildAIAux_keys labels ([], 0)
  · intro l
    have h := buildAIAux_mem labels l ([], 0)
    simpa [buildActivityIndex] using h
  · intro c hc
    unfold wrapperColumns buildActivityIndex
    unfold buildActivityIndex at hc
    rw [hinv.2.1]
    apply List.count_eq_one_of_mem (List.nodup_range _)
    rw [List.mem_range, ← hinv.1]
    exact hc

/-! ### Witnesses -/

/-- Witness for C1 at a concrete pass: the single prediction locks the
single ground-truth instance at step 1 and the lock value persists. -/
theorem lock_table_invariant_witness :
    lockRead (lockAt [(1:ℚ)/2] [⟨0, 0, 1⟩] [⟨0, 0, 1, 1, some 2⟩] 2) 0 0 =
      lockRead (lockAt [(1:ℚ)/2] [⟨0, 0, 1⟩] [⟨0, 0, 1, 1, some 2⟩] 1) 0 0 :=
  lock_table_invariant.1 [(1:ℚ)/2] [⟨0, 0, 1⟩] [⟨0, 0, 1, 1, some 2⟩] 1 2 0 0
    (by norm_num)
    (by norm_num [lockAt, runMatchFrom, initLock, stepPred, stepPredThrs, stepThr,
      walkGt, gtGroup, tiouOf, segment_iou, origOf, endOf, argsortDesc, argsortAsc,
      insertByAsc, lockRead, List.enum, List.enumFrom, List.take, sanitizeGentime])

/-- Witness for C2: a prediction with tIoU 0 against its video's only
ground-truth instance is a false positive and leaves the lock row
unchanged. -/
theorem matcher_walk_spec_witness :
    (stepThr 0 ⟨0, 100, 101, 1, none⟩ [(0, ⟨0, 0, 1⟩)] ((1:ℚ)/2) [-1]).2 = [-1] :=
  (matcher_walk_spec 0 ⟨0, 100, 101, 1, none⟩ [(0, ⟨0, 0, 1⟩)] ((1:ℚ)/2) [-1]).2.2
    (by norm_num [stepThr, walkGt, tiouOf, segment_iou, origOf, endOf,
      argsortDesc, argsortAsc, insertByAsc, sanitizeGentime, fpMark])

/-- Witness for C3 (amended) at a concrete single-prediction class. -/
theorem latency_sum_spec_witness :
    (compute_average_precision_detection (fun _ _ => 0) [(1:ℚ)/2] [⟨0, 0, 1⟩]
        [⟨0, 0, 1, 1, some 2⟩]).2.1.getD 0 0 =
      tpLatencySum (runMatch [(1:ℚ)/2] [⟨0, 0, 1⟩]
        (sortPredictions [⟨0, 0, 1, 1, some 2⟩])).1 0 :=
  (latency_sum_spec (fun _ _ => 0) [(1:ℚ)/2] [⟨0, 0, 1⟩] [⟨0, 0, 1, 1, some 2⟩] 0
    (by simp)).1

/-- Witness for C4 at a concrete single-prediction class. -/
theorem tp_fp_partition_witness :
    (cumsum (tpRow (runMatch [(1:ℚ)/2] [⟨0, 0, 1⟩]
        (sortPredictions [⟨0, 0, 1, 1, some 2⟩])).1 0)).getD 0 0 +
      (cumsum (fpRow (runMatch [(1:ℚ)/2] [⟨0, 0, 1⟩]
        (sortPredictions [⟨0, 0, 1, 1, some 2⟩])).1 0)).getD 0 0 =
      ((0 : Nat) : ℚ) + 1 :=
  tp_fp_partition [(1:ℚ)/2] [⟨0, 0, 1⟩] [⟨0, 0, 1, 1, some 2⟩] 0 0
    (by simp) (by simp)

/-- Witness for C5: an empty prediction set yields the zero vectors. -/
theorem empty_sets_zero_vectors_witness :
    compute_average_precision_detection (fun _ _ => 0) [(1:ℚ)/2] [⟨0, 0, 1⟩] [] =
      (List.replicate 1 0, List.replicate 1 0, List.replicate 1 0) :=
  empty_sets_zero_vectors (fun _ _ => 0) [(1:ℚ)/2] [⟨0, 0, 1⟩] [] (Or.inl rfl)

/-- Witness for C6: a prediction for video 5 when only video 0 has ground
truth is an unconditional false positive. -/
theorem missing_video_false_positive_witness :
    stepPred [(1:ℚ)/2] 0 ⟨5, 0, 1, 1, none⟩ [⟨0, 0, 1⟩] [[-1]] =
      ([(1:ℚ)/2].map (fun _ => fpMark), [[-1]]) :=
  missing_video_false_positive [(1:ℚ)/2] 0 ⟨5, 0, 1, 1, none⟩ [⟨0, 0, 1⟩] [[-1]]
    (by decide)

/-- Witness for C9: a proposal of a gated class is appended to an empty
accepted set. -/
theorem online_accept_spec_witness :
    considerProposal ((1:ℚ)/2) 0 [] ⟨0, 0, 1, 1⟩ = [] ++ [⟨0, 0, 1, 1⟩] :=
  ((online_accept_spec.2.1 ((1:ℚ)/2) 0 [] ⟨0, 0, 1, 1⟩ rfl).1).mpr
    (by intro q hq; cases hq)

/-- Witness for C10: with labels a, b, a the index has two classes and
column 1 is written exactly once. -/
theorem activity_index_bijection_witness :
    (wrapperColumns (buildActivityIndex ["a", "b", "a"]).1).count 1 = 1 :=
  (activity_index_bijection ["a", "b", "a"]).2.2.2.2.2 1 (by decide)
